import Mathlib

/-!
Phase-segmented counter accounting of `perf_statistics.c`.

A shallow embedding of the JVMTI agent `src/native/jvmti_agents/perf_statistics.c`.

* The global variables `current_phase`, `counters[0 .. num_counter)` and
  `gathering_statistics` form the record `State`.
* Every entry point is a function from the state before the call to the state after it.
  A call that ends the process (`assert`, `err`, `errx`) returns `Except.error`, and the
  error carries the reason together with the memory contents at the moment of the abort.
* `clock_gettime` and `read` are the environment: what they deliver is an input, the
  record `Reading`.  Each entry point samples every counter at most once, so an entry
  point takes a function from the counter's index to the reading it gets.
* `uint64_t` values are natural numbers, reduced modulo `2 ^ 64` where the C arithmetic
  can wrap.
* `counter_get_total` is given twice.  `counter_get_total` computes the total in exact
  rational arithmetic: the number that the C function returns up to the rounding of its
  double operations.  `counter_get_total_double` follows the C function operation by
  operation in binary64 arithmetic, every conversion, addition and division rounded to the
  nearest double, ties to even; it settles the comparison of totals that are computed
  along different paths, where the rounding decides.  For a hardware counter below
  `2 ^ 53` the two agree (`counter_get_total_double_val`).
* The text written by `harness_end` is the record `Report`: the fields of the two
  tab-separated lines and the rows of the record file.
* Every `assert` is compiled in (`NDEBUG` is not defined), `DEBUG` is not defined and
  `FREQ_CHECK` is `0`, as in the source file.
-/

namespace PerfStatistics

/-! ## Constants and data model -/

/-- The macro `MAX_PHASES`, `(1<<14)`. -/
def MAX_PHASES : Nat := 1 <<< 14

/-- The macro `MAX_COUNTERS`. -/
def MAX_COUNTERS : Nat := 16

/-- Number of values of a `uint64_t`. -/
def UINT64_MOD : Nat := 2 ^ 64

/-- Largest value of the C type `int`. -/
def INT_MAX : Nat := 2 ^ 31 - 1

/-- The enum `CounterType`. -/
inductive CounterType where
  | Time
  | PerfEvent
  deriving DecidableEq, Repr

/-- The struct `CounterValue`. -/
structure CounterValue where
  raw_value : Nat
  aux_value : Nat
  deriving DecidableEq, Repr

/-- The struct `Counter`.  The array `count[MAX_PHASES]` is a function of the index; only
indices below `MAX_PHASES` exist in C. -/
structure Counter where
  name : String
  type : CounterType
  running : Bool
  start_value : CounterValue
  last_delta : Nat
  total_count : Nat
  count : Nat → Nat
  fd : Int

/-- The global variables of the agent.  `num_counter` is the length of `counters`;
`time_counter` and `task_clock_counter` are the indices the two pointers refer to.
`current_phase` is a C `int` that starts at `0` and is only ever incremented. -/
structure State where
  current_phase : Nat
  counters : List Counter
  time_counter : Nat
  task_clock_counter : Nat
  gathering_statistics : Bool

/-- The variable `num_counter`. -/
def State.num_counter (s : State) : Nat := s.counters.length

/-- Why the process ended. -/
inductive Fatal where
  /-- Exit through `errx(1, "Fail to read event")` or `err(1, "read failed")`. -/
  | read_failed
  /-- Failure of `assert(values[1] == values[2])`. -/
  | aux_mismatch
  /-- Failure of `assert(old_phase < MAX_PHASES)`. -/
  | phase_capacity
  /-- The diagnostic line with the counter's name, the current and the previous raw value,
  followed by `assert(!overflow)`. -/
  | overflow (name : String) (current prev : Nat)
  /-- Failure of `assert(c->running)` in `counter_stop`. -/
  | not_running
  /-- Increment `current_phase++` at `INT_MAX`, undefined in C. -/
  | int_overflow
  deriving DecidableEq, Repr

/-- What the environment hands to one call of `get_current_value`: the `timespec` filled
in by `clock_gettime`, and the return value of `read` with the contents of `values`
after it. -/
structure Reading where
  tv_sec : Nat
  tv_nsec : Nat
  ret : Int
  values0 : Nat
  values1 : Nat
  values2 : Nat

/-! ## Counter operations -/

/-- The function `get_current_value`.  In `ret < sizeof(values)` the left operand is
converted to `size_t`, so a return value of `-1` is not below `24`. -/
def get_current_value (c : Counter) (r : Reading) : Except Fatal CounterValue :=
  match c.type with
  | CounterType.Time =>
    .ok { raw_value := (r.tv_sec * 1000000000 + r.tv_nsec) % UINT64_MOD, aux_value := 0 }
  | CounterType.PerfEvent =>
    if (r.ret % (UINT64_MOD : Int)).toNat < 24 then
      .error Fatal.read_failed
    else if r.values1 % UINT64_MOD ≠ r.values2 % UINT64_MOD then
      .error Fatal.aux_mismatch
    else
      .ok { raw_value := r.values0 % UINT64_MOD, aux_value := r.values1 % UINT64_MOD }

/-- The function `counter_phase_change` (with `FREQ_CHECK` equal to `0`).  Every caller
passes `current_phase` for `old_phase`, which is never negative.  The subtraction is
guarded by the overflow check, so it does not wrap. -/
def counter_phase_change (c : Counter) (old_phase : Nat) (r : Reading) :
    Except (Fatal × Counter) Counter :=
  if c.running then
    if ¬ old_phase < MAX_PHASES then
      .error (Fatal.phase_capacity, c)
    else
      match get_current_value c r with
      | .error f => .error (f, c)
      | .ok current_value =>
        if current_value.raw_value < c.start_value.raw_value then
          .error (Fatal.overflow c.name current_value.raw_value c.start_value.raw_value, c)
        else
          let delta := current_value.raw_value - c.start_value.raw_value
          .ok { c with
                last_delta := delta
                total_count := (c.total_count + delta) % UINT64_MOD
                count := Function.update c.count old_phase
                  ((c.count old_phase + delta) % UINT64_MOD)
                start_value := current_value }
  else
    .ok c

/-- The function `counter_start`.  The two `ioctl` calls act on the kernel's counter, not
on the agent's memory. -/
def counter_start (c : Counter) (r : Reading) : Except (Fatal × Counter) Counter :=
  let c1 := { c with running := true }
  match get_current_value c1 r with
  | .error f => .error (f, c1)
  | .ok v => .ok { c1 with start_value := v }

/-- The function `counter_stop`; the global `current_phase` it reads is a parameter. -/
def counter_stop (c : Counter) (current_phase : Nat) (r : Reading) :
    Except (Fatal × Counter) Counter :=
  if ¬ c.running then
    .error (Fatal.not_running, c)
  else
    match counter_phase_change c current_phase r with
    | .error e => .error e
    | .ok c1 => .ok { c1 with running := false }

/-- The loop `for (int i = mutator?0:1; i<= current_phase; i+=2) sum+= c->count[i];` from
the value `i` of the loop variable on, in exact arithmetic. -/
def counter_get_total_loop (count : Nat → Nat) (current_phase : Nat) (i : Nat) (sum : ℚ) : ℚ :=
  if i ≤ current_phase then
    counter_get_total_loop count current_phase (i + 2) (sum + (count i : ℚ))
  else
    sum
termination_by current_phase + 1 - i

/-- The function `counter_get_total` in exact arithmetic; the global `current_phase` it
reads is a parameter. -/
def counter_get_total (c : Counter) (current_phase : Nat) (merged mutator : Bool) : ℚ :=
  if merged then
    if c.type = CounterType.Time then (c.total_count : ℚ) / 1000000
    else (c.total_count : ℚ)
  else
    let sum := counter_get_total_loop c.count current_phase (if mutator then 0 else 1) 0
    if c.type = CounterType.Time then sum / 1000000
    else sum

/-! ## Double arithmetic -/

/-- Floor of the binary logarithm of `n`, by halving; `fuel` bounds the number of halvings,
and `n` itself is always enough. -/
def log2_floor : Nat → Nat → Nat
  | 0, _ => 0
  | fuel + 1, n => if n < 2 then 0 else log2_floor fuel (n / 2) + 1

/-- A finite double that is not negative, as the value `mantissa * 2 ^ exponent`.  Zero is
`⟨0, 0⟩`; every other double that the operations below return has
`2 ^ 52 ≤ mantissa < 2 ^ 53`, so two of them are equal exactly when their values are.
The exponent is not bounded: the totals of this program are below `2 ^ 78` and, when not
zero, above `2 ^ (-20)`, far from the limits of the format. -/
structure Double where
  mantissa : Nat
  exponent : Int
  deriving DecidableEq, Repr

/-- The number a double stands for. -/
def Double.val (x : Double) : ℚ := (x.mantissa : ℚ) * (2 : ℚ) ^ x.exponent

/-- The double nearest to `(n / d) * 2 ^ x`, for `0 < d`, ties to the even mantissa.  With
`e` the floor of the binary logarithm of `n / d`, the quotient is scaled by `2 ^ (52 - e)`
into the range `2 ^ 52 ≤ . < 2 ^ 53` and rounded to a whole mantissa there. -/
def Double.round (n d : Nat) (x : Int) : Double :=
  if n = 0 then ⟨0, 0⟩ else
    let e0 : Int := (log2_floor n n : Int) - (log2_floor d d : Int)
    let e : Int := if d * 2 ^ e0.toNat ≤ n * 2 ^ (-e0).toNat then e0 else e0 - 1
    let k : Int := e - 52
    let N : Nat := n * 2 ^ (-k).toNat
    let D : Nat := d * 2 ^ k.toNat
    let m : Nat := N / D
    let r : Nat := N % D
    let m1 : Nat :=
      if 2 * r < D then m else if D < 2 * r then m + 1 else if m % 2 = 0 then m else m + 1
    if m1 = 2 ^ 53 then ⟨2 ^ 52, k + x + 1⟩ else ⟨m1, k + x⟩

/-- The double `0.0`. -/
def Double.zero : Double := ⟨0, 0⟩

/-- The conversion of a `uint64_t` to `double`. -/
def Double.of_uint64 (v : Nat) : Double := Double.round v 1 0

/-- The sum of two doubles: adding zero gives the other operand, otherwise the exact sum
is rounded. -/
def Double.add (a b : Double) : Double :=
  if a.mantissa = 0 then b else if b.mantissa = 0 then a else
    let k := min a.exponent b.exponent
    Double.round
      (a.mantissa * 2 ^ (a.exponent - k).toNat + b.mantissa * 2 ^ (b.exponent - k).toNat) 1 k

/-- The quotient of two doubles, for a divisor that is not zero. -/
def Double.div (a b : Double) : Double :=
  Double.round a.mantissa b.mantissa (a.exponent - b.exponent)

/-- The constant `1e6`. -/
def one_million : Double := Double.of_uint64 1000000

/-- The loop `for (int i = mutator?0:1; i<= current_phase; i+=2) sum+= c->count[i];` from
the value `i` of the loop variable on, in double arithmetic: each bucket is converted to
`double` and added to `sum`. -/
def counter_get_total_double_loop (count : Nat → Nat) (current_phase : Nat) (i : Nat)
    (sum : Double) : Double :=
  if i ≤ current_phase then
    counter_get_total_double_loop count current_phase (i + 2)
      (Double.add sum (Double.of_uint64 (count i)))
  else
    sum
termination_by current_phase + 1 - i

/-- The function `counter_get_total` in double arithmetic; the global `current_phase` it
reads is a parameter. -/
def counter_get_total_double (c : Counter) (current_phase : Nat) (merged mutator : Bool) :
    Double :=
  if merged then
    if c.type = CounterType.Time then Double.div (Double.of_uint64 c.total_count) one_million
    else Double.of_uint64 c.total_count
  else
    let sum := counter_get_total_double_loop c.count current_phase (if mutator then 0 else 1)
      Double.zero
    if c.type = CounterType.Time then Double.div sum one_million
    else sum

/-! ## The loops over the registry -/

/-- The loop `for (int i = 0; i < num_counter; i++) f(counters+i)` from index `i` on, over
the counters not yet visited.  When a call aborts, the counters visited before hold their
new contents, the aborting one holds what it held at the abort, the rest is untouched. -/
def for_each_counter (f : Nat → Counter → Except (Fatal × Counter) Counter) :
    Nat → List Counter → Except (Fatal × List Counter) (List Counter)
  | _, [] => .ok []
  | i, c :: cs =>
    match f i c with
    | .error (e, c1) => .error (e, c1 :: cs)
    | .ok c1 =>
      match for_each_counter f (i + 1) cs with
      | .error (e, cs1) => .error (e, c1 :: cs1)
      | .ok cs1 => .ok (c1 :: cs1)

/-! ## Entry points -/

/-- The body shared by `GarbageCollectionStart` and `GarbageCollectionFinish`. -/
def phase_boundary (s : State) (env : Nat → Reading) : Except (Fatal × State) State :=
  if s.gathering_statistics then
    match for_each_counter (fun i c => counter_phase_change c s.current_phase (env i)) 0
        s.counters with
    | .error (e, cs) => .error (e, { s with counters := cs })
    | .ok cs =>
      if INT_MAX ≤ s.current_phase then
        .error (Fatal.int_overflow, { s with counters := cs })
      else
        .ok { s with counters := cs, current_phase := s.current_phase + 1 }
  else
    .ok s

/-- The callback `GarbageCollectionStart`. -/
def GarbageCollectionStart (s : State) (env : Nat → Reading) : Except (Fatal × State) State :=
  phase_boundary s env

/-- The callback `GarbageCollectionFinish`. -/
def GarbageCollectionFinish (s : State) (env : Nat → Reading) : Except (Fatal × State) State :=
  phase_boundary s env

/-- The function `harness_begin`. -/
def harness_begin (s : State) (env : Nat → Reading) : Except (Fatal × State) State :=
  let s1 := { s with gathering_statistics := true }
  match for_each_counter (fun i c => counter_start c (env i)) 0 s1.counters with
  | .error (e, cs) => .error (e, { s1 with counters := cs })
  | .ok cs => .ok { s1 with counters := cs }

/-! ## The report of `harness_end` -/

/-- One field of the data line of the tabulated summary, by the conversion that prints
it: `%d`, `%.0f` or `%.2f`. -/
inductive Cell where
  | d (n : Nat)
  | f0 (x : ℚ)
  | f2 (x : ℚ)
  deriving DecidableEq

/-- One line of `scratch/perf_statistics_phases.csv` after the header line. -/
structure Row where
  mode : String
  phase : Nat
  counter : String
  value : Nat
  deriving DecidableEq, Repr

/-- What `harness_end` writes: the fields of the header line and of the data line of the
tabulated summary (fields are separated by tabs), and the lines of the record file after
its header line. -/
structure Report where
  header : List String
  data : List Cell
  csv : List Row

/-- The test `c->type == PerfEvent && strncmp(c->name, "PERF_COUNT_HW_CPU_CYCLES", 24) == 0`:
the literal has `24` characters, so the comparison holds when the first `24` characters of
the name are those of the literal. -/
def is_cpu_cycles (c : Counter) : Bool :=
  decide (c.type = CounterType.PerfEvent) &&
    decide (c.name.toList.take 24 = "PERF_COUNT_HW_CPU_CYCLES".toList)

/-- A counter with every field zero, the value of `counters[i]` before `setup_counters`. -/
def zero_counter : Counter :=
  { name := "", type := CounterType.Time, running := false,
    start_value := { raw_value := 0, aux_value := 0 }, last_delta := 0, total_count := 0,
    count := fun _ => 0, fd := 0 }

/-- The fields printed by the first loop of `harness_end`, for one counter. -/
def header_fields (c : Counter) : List String :=
  [c.name ++ ".other", c.name ++ ".stw"] ++
    (if is_cpu_cycles c then ["freq.other", "freq.stw"] else [])

/-- The fields printed by the second loop of `harness_end`, for one counter. -/
def data_fields (s : State) (c : Counter) : List Cell :=
  let task_clock := s.counters.getD s.task_clock_counter zero_counter
  [Cell.f0 (counter_get_total c s.current_phase false true),
   Cell.f0 (counter_get_total c s.current_phase false false)] ++
    (if is_cpu_cycles c then
      [Cell.f2 (counter_get_total c s.current_phase false true /
          counter_get_total task_clock s.current_phase false true),
       Cell.f2 (counter_get_total c s.current_phase false false /
          counter_get_total task_clock s.current_phase false false)]
     else [])

/-- The inner loop over `phase` that writes the record file, for one counter, from the
value `phase` of the loop variable on; `n` is the number of iterations left. -/
def csv_rows_from (c : Counter) : Nat → Nat → List Row
  | 0, _ => []
  | n + 1, phase =>
    { mode := if phase % 2 = 0 then "other" else "stw",
      phase := phase, counter := c.name, value := c.count phase } ::
      csv_rows_from c n (phase + 1)

/-- The output part of `harness_end`, in the state left by the stop loop.  The record
file is taken to open. -/
def report (s : State) : Report :=
  let time := s.counters.getD s.time_counter zero_counter
  { header := ["pauses", "time"] ++ s.counters.flatMap header_fields
    data := [Cell.d (s.current_phase / 2),
             Cell.f0 (counter_get_total time s.current_phase true false)] ++
            s.counters.flatMap (data_fields s)
    csv := s.counters.flatMap (fun c => csv_rows_from c (s.current_phase + 1) 0) }

/-- The function `harness_end`. -/
def harness_end (s : State) (env : Nat → Reading) : Except (Fatal × State) (State × Report) :=
  match for_each_counter (fun i c => counter_stop c s.current_phase (env i)) 0 s.counters with
  | .error (e, cs) => .error (e, { s with counters := cs })
  | .ok cs =>
    let s1 := { s with counters := cs, gathering_statistics := false }
    .ok (s1, report s1)

/-! ## Initial state -/

/-- The value returned by `perf_counter_create` when the event resolves and opens; `fd` is
the descriptor `perf_event_open` returned. -/
def perf_counter_create (perf_event : String) (fd : Int) : Counter :=
  { name := perf_event, type := CounterType.PerfEvent, running := false,
    start_value := { raw_value := 0, aux_value := 0 }, last_delta := 0, total_count := 0,
    count := fun _ => 0, fd := fd }

/-- The state after the constructor `setup_counters` has returned: the time counter, the
task clock counter opened with descriptor `fd0`, then one counter for each name in
`PERF_EVENTS` with its descriptor.  The static initialisers give `current_phase = 0` and
`gathering_statistics = false`. -/
def setup_counters (fd0 : Int) (perf_events : List (String × Int)) : State :=
  { current_phase := 0
    counters :=
      { name := "time", type := CounterType.Time, running := false,
        start_value := { raw_value := 0, aux_value := 0 }, last_delta := 0, total_count := 0,
        count := fun _ => 0, fd := -1 } ::
      perf_counter_create "PERF_COUNT_SW_TASK_CLOCK" fd0 ::
      perf_events.map (fun e => perf_counter_create e.1 e.2)
    time_counter := 0
    task_clock_counter := 1
    gathering_statistics := false }

/-! ## Sequences of calls -/

/-- A call of one of the four entry points, with the readings it gets. -/
inductive Call where
  | harness_begin (env : Nat → Reading)
  | GarbageCollectionStart (env : Nat → Reading)
  | GarbageCollectionFinish (env : Nat → Reading)
  | harness_end (env : Nat → Reading)

/-- The state after one call. -/
def Call.exec (s : State) : Call → Except (Fatal × State) State
  | Call.harness_begin env => PerfStatistics.harness_begin s env
  | Call.GarbageCollectionStart env => PerfStatistics.GarbageCollectionStart s env
  | Call.GarbageCollectionFinish env => PerfStatistics.GarbageCollectionFinish s env
  | Call.harness_end env =>
    match PerfStatistics.harness_end s env with
    | .error e => .error e
    | .ok (s1, _) => .ok s1

/-- The state after a sequence of calls; the process ends at the first fatal call. -/
def run_calls (s : State) : List Call → Except (Fatal × State) State
  | [] => .ok s
  | c :: cs =>
    match c.exec s with
    | .error e => .error e
    | .ok s1 => run_calls s1 cs

/-- The two kinds of phase boundary notification. -/
inductive Boundary where
  | start
  | finish
  deriving DecidableEq, Repr

/-- The call that delivers a notification. -/
def Boundary.call (b : Boundary) (env : Nat → Reading) : Call :=
  match b with
  | Boundary.start => Call.GarbageCollectionStart env
  | Boundary.finish => Call.GarbageCollectionFinish env

/-- The notifications `kinds` as calls, the first one being call number `j` of the
window. -/
def boundary_calls (env : Nat → Nat → Reading) : Nat → List Boundary → List Call
  | _, [] => []
  | j, b :: bs => b.call (env j) :: boundary_calls env (j + 1) bs

/-- The state after the notifications `kinds` have been delivered to `s`, the first one
being call number `j` of the window. -/
def deliver (env : Nat → Nat → Reading) (s : State) (j : Nat) (kinds : List Boundary) :
    Except (Fatal × State) State :=
  run_calls s (boundary_calls env j kinds)

/-- One measurement window: `harness_begin`, the notifications `kinds`, `harness_end`.
Call number `j` of the window gets the readings `env j`: `harness_begin` is call `0`, the
notifications are calls `1 .. kinds.length`, `harness_end` is call `kinds.length + 1`. -/
def window (s : State) (kinds : List Boundary) (env : Nat → Nat → Reading) :
    Except (Fatal × State) (State × Report) :=
  match PerfStatistics.harness_begin s (env 0) with
  | .error e => .error e
  | .ok s1 =>
    match deliver env s1 1 kinds with
    | .error e => .error e
    | .ok s2 => PerfStatistics.harness_end s2 (env (kinds.length + 1))

/-! ## Quantities the statements are about -/

/-- Sum of the buckets `count[0] .. count[n - 1]`. -/
def bucket_sum (count : Nat → Nat) (n : Nat) : Nat :=
  ∑ j in Finset.range n, count j

/-- Sum of the buckets `count[j]` with `j ≤ current_phase` and `j % 2 = parity`. -/
def parity_sum (count : Nat → Nat) (current_phase parity : Nat) : Nat :=
  ∑ j in (Finset.range (current_phase + 1)).filter (fun j => j % 2 = parity), count j

/-- Accounting of one counter at phase index `cp`, as far as it holds in every reachable
state: the total is the sum of the buckets up to `cp` modulo `2 ^ 64`, and the buckets of
phases after `cp` and past the end of the array are zero. -/
def Accounted (cp : Nat) (c : Counter) : Prop :=
  c.total_count = bucket_sum c.count (cp + 1) % UINT64_MOD ∧
  (∀ j, cp < j → c.count j = 0) ∧
  (∀ j, MAX_PHASES ≤ j → c.count j = 0)

/-- The buckets up to `cp` sum to at most the base of the next delta, which is a
`uint64_t`: the next roll cannot wrap the total or the bucket. -/
def Bounded (cp : Nat) (c : Counter) : Prop :=
  bucket_sum c.count (cp + 1) ≤ c.start_value.raw_value ∧
  c.start_value.raw_value < UINT64_MOD

/-- The exact form of the accounting, kept through the first window. -/
def Exact (cp : Nat) (c : Counter) : Prop := Accounted cp c ∧ Bounded cp c

/-- Counter `c` has been started and rolled by the calls `0 .. j` of a window in which
call number `m` read the raw value `raw m` for it: the base is `raw j`, the bucket of every
phase `p < j` holds `raw (p + 1) - raw p`, the other buckets are zero and the total is
`raw j - raw 0`. -/
def Tracks (raw : Nat → Nat) (j : Nat) (c : Counter) : Prop :=
  c.start_value.raw_value = raw j ∧
  (∀ p, p < j → c.count p = raw (p + 1) - raw p) ∧
  (∀ p, j ≤ p → c.count p = 0) ∧
  c.total_count = raw j - raw 0

/-- The registry inside a window after `j` notifications, for the initial registry `cs0`
and the raw values `S m i` read by call `m` for counter `i`. -/
def InWindow (cs0 : List Counter) (S : Nat → Nat → Nat) (j : Nat) (s : State) : Prop :=
  s.current_phase = j ∧ s.gathering_statistics = true ∧ s.counters.length = cs0.length ∧
  ∀ i c, s.counters[i]? = some c →
    c.running = true ∧ (∃ c0, cs0[i]? = some c0 ∧ c.type = c0.type ∧ c.name = c0.name) ∧
    Tracks (fun m => S m i) j c

/-- The registry after the `harness_end` of a window with `k` notifications, for the
initial registry `cs0` and the raw values `S m i` read by call `m` for counter `i`. -/
def AfterWindow (cs0 : List Counter) (S : Nat → Nat → Nat) (k : Nat) (s : State) : Prop :=
  s.current_phase = k ∧ s.gathering_statistics = false ∧ s.counters.length = cs0.length ∧
  ∀ i c, s.counters[i]? = some c →
    c.running = false ∧ (∃ c0, cs0[i]? = some c0 ∧ c.type = c0.type ∧ c.name = c0.name) ∧
    Tracks (fun m => S m i) (k + 1) c

/-- Readings in which call number `j` of a window reads the raw value `raw j` on every
counter: the clock shows `raw j` nanoseconds, and `read` fills all `24` bytes with the
count `raw j` and equal enabled and running times. -/
def env_of (raw : Nat → Nat) : Nat → Nat → Reading :=
  fun j _ =>
    { tv_sec := 0, tv_nsec := raw j, ret := 24, values0 := raw j, values1 := 7, values2 := 7 }

/-- Raw values `1000, 1100, 1150, 1180`: the deltas are `+100`, `+50`, `+30`. -/
def example_raw (j : Nat) : Nat := [1000, 1100, 1150, 1180].getD j 0

/-- Raw values `0`, `2 ^ 53`, `2 ^ 53 + 1`, `2 ^ 53 + 2`: the deltas are `2 ^ 53`, `1`, `1`. -/
def large_raw (j : Nat) : Nat := [0, 2 ^ 53, 2 ^ 53 + 1, 2 ^ 53 + 2].getD j 0

/-- One window as a sequence of calls: `harness_begin`, a collection, `harness_end`, reading
`example_raw`. -/
def example_calls : List Call :=
  [Call.harness_begin (env_of example_raw 0), Call.GarbageCollectionStart (env_of example_raw 1),
   Call.GarbageCollectionFinish (env_of example_raw 2), Call.harness_end (env_of example_raw 3)]

/-- A running hardware counter whose base is the raw value `500`. -/
def example_counter : Counter :=
  { perf_counter_create "PERF_COUNT_HW_INSTRUCTIONS" 4 with
    running := true, start_value := { raw_value := 500, aux_value := 7 } }

/-- The initial state with one configured event besides the two fixed counters. -/
def example_state : State := setup_counters 3 [("PERF_COUNT_HW_INSTRUCTIONS", 4)]

/-- Notifications that come as JVMTI sends them inside a window that begins outside a
collection: `start`, `finish`, `start`, `finish`, ..., the last `start` possibly without
its `finish`. -/
def alternates : List Boundary → Bool
  | [] => true
  | [Boundary.start] => true
  | Boundary.start :: Boundary.finish :: rest => alternates rest
  | _ => false

/-- Number of collections that both started and finished among the notifications: the
occurrences of a `start` directly followed by a `finish`. -/
def complete_pairs : List Boundary → Nat
  | [] => 0
  | Boundary.start :: Boundary.finish :: rest => complete_pairs rest + 1
  | _ :: rest => complete_pairs rest

/-- The line of the record file for counter `c` and phase `phase`. -/
def csv_row (c : Counter) (phase : Nat) : Row :=
  { mode := if phase % 2 = 0 then "other" else "stw",
    phase := phase, counter := c.name, value := c.count phase }

/-- The initial state when `PERF_EVENTS` names a cycles event and an instructions event. -/
def cycles_state : State :=
  setup_counters 3 [("PERF_COUNT_HW_CPU_CYCLES:u", 4), ("PERF_COUNT_HW_INSTRUCTIONS", 5)]

/-- The registry `cs1` has the counters of `cs` with every bucket below `n` as it was. -/
def KeepsBelow (n : Nat) (cs cs1 : List Counter) : Prop :=
  cs1.length = cs.length ∧
  ∀ (k : Nat) (c c1 : Counter), cs[k]? = some c → cs1[k]? = some c1 →
    ∀ i, i < n → c1.count i = c.count i

/-- The state after `harness_begin` and the notifications `kinds`, before `harness_end`. -/
def window_state (s : State) (kinds : List Boundary) (env : Nat → Nat → Reading) :
    Except (Fatal × State) State :=
  match PerfStatistics.harness_begin s (env 0) with
  | .error e => .error e
  | .ok s1 => deliver env s1 1 kinds

/-! ## The registry loop -/

theorem for_each_counter_cons_ok {f : Nat → Counter → Except (Fatal × Counter) Counter}
    {c : Counter} {cs cs1 : List Counter} {i : Nat}
    (h : for_each_counter f i (c :: cs) = .ok cs1) :
    ∃ c1 cs2, f i c = .ok c1 ∧ for_each_counter f (i + 1) cs = .ok cs2 ∧ cs1 = c1 :: cs2 := by
  simp only [for_each_counter] at h
  cases hc : f i c with
  | error e => rw [hc] at h; exact absurd h (by simp)
  | ok c1 =>
    rw [hc] at h
    cases h2 : for_each_counter f (i + 1) cs with
    | error e => rw [h2] at h; exact absurd h (by simp)
    | ok cs2 =>
      rw [h2] at h
      simp only [Except.ok.injEq] at h
      exact ⟨c1, cs2, rfl, rfl, h.symm⟩

theorem for_each_counter_length {f : Nat → Counter → Except (Fatal × Counter) Counter} :
    ∀ (cs : List Counter) (i : Nat) (cs1 : List Counter),
      for_each_counter f i cs = .ok cs1 → cs1.length = cs.length := by
  intro cs
  induction cs with
  | nil =>
    intro i cs1 h
    simp only [for_each_counter, Except.ok.injEq] at h
    subst h; rfl
  | cons c cs ih =>
    intro i cs1 h
    obtain ⟨c1, cs2, _, h2, rfl⟩ := for_each_counter_cons_ok h
    simp [ih _ _ h2]

theorem for_each_counter_get {f : Nat → Counter → Except (Fatal × Counter) Counter} :
    ∀ (cs : List Counter) (i : Nat) (cs1 : List Counter),
      for_each_counter f i cs = .ok cs1 →
      ∀ (k : Nat) (c1 : Counter), cs1[k]? = some c1 →
        ∃ c, cs[k]? = some c ∧ f (i + k) c = .ok c1 := by
  intro cs
  induction cs with
  | nil =>
    intro i cs1 h k c1 hk
    simp only [for_each_counter, Except.ok.injEq] at h
    subst h
    simp at hk
  | cons c cs ih =>
    intro i cs1 h k c1 hk
    obtain ⟨c2, cs2, hc, h2, rfl⟩ := for_each_counter_cons_ok h
    cases k with
    | zero =>
      simp only [List.getElem?_cons_zero, Option.some.injEq] at hk
      subst hk
      exact ⟨c, by simp, by simpa using hc⟩
    | succ k =>
      simp only [List.getElem?_cons_succ] at hk
      obtain ⟨c0, h0, hf⟩ := ih _ _ h2 k c1 hk
      refine ⟨c0, by simpa using h0, ?_⟩
      have : i + (k + 1) = i + 1 + k := by omega
      rw [this]; exact hf

theorem for_each_counter_get_fwd {f : Nat → Counter → Except (Fatal × Counter) Counter}
    {cs cs1 : List Counter} {i : Nat} (h : for_each_counter f i cs = .ok cs1)
    {k : Nat} {c : Counter} (hk : cs[k]? = some c) :
    ∃ c1, cs1[k]? = some c1 ∧ f (i + k) c = .ok c1 := by
  have hlen := for_each_counter_length cs i cs1 h
  have hlt : k < cs.length := by
    rcases Nat.lt_or_ge k cs.length with h1 | h1
    · exact h1
    · rw [List.getElem?_eq_none h1] at hk; exact absurd hk (by simp)
  have hk1 : cs1[k]? = some (cs1[k]) := List.getElem?_eq_getElem (by omega)
  obtain ⟨c0, h0, hf⟩ := for_each_counter_get cs i cs1 h k _ hk1
  rw [hk] at h0
  simp only [Option.some.injEq] at h0
  subst h0
  exact ⟨_, hk1, hf⟩

theorem for_each_counter_mem {f : Nat → Counter → Except (Fatal × Counter) Counter}
    {cs cs1 : List Counter} {i : Nat} (h : for_each_counter f i cs = .ok cs1)
    {c1 : Counter} (hc1 : c1 ∈ cs1) :
    ∃ c, c ∈ cs ∧ ∃ k, f k c = .ok c1 := by
  obtain ⟨k, hk⟩ := List.getElem?_of_mem hc1
  obtain ⟨c, hc, hf⟩ := for_each_counter_get cs i cs1 h k c1 hk
  exact ⟨c, List.getElem?_mem hc, _, hf⟩

theorem for_each_counter_complete {f : Nat → Counter → Except (Fatal × Counter) Counter} :
    ∀ (cs : List Counter) (i : Nat),
      (∀ (k : Nat) (c : Counter), cs[k]? = some c → ∃ c1, f (i + k) c = .ok c1) →
      ∃ cs1, for_each_counter f i cs = .ok cs1 := by
  intro cs
  induction cs with
  | nil => intro i _; exact ⟨[], rfl⟩
  | cons c cs ih =>
    intro i h
    obtain ⟨c1, hc1⟩ := h 0 c (by simp)
    have hrest : ∀ (k : Nat) (c : Counter), cs[k]? = some c → ∃ c1, f (i + 1 + k) c = .ok c1 := by
      intro k c0 hk
      have := h (k + 1) c0 (by simpa using hk)
      have e : i + (k + 1) = i + 1 + k := by omega
      rwa [e] at this
    obtain ⟨cs1, hcs1⟩ := ih (i + 1) hrest
    refine ⟨c1 :: cs1, ?_⟩
    simp only [Nat.add_zero] at hc1
    simp [for_each_counter, hc1, hcs1]

/-- When the loop aborts, a counter on which the loop body cannot succeed, and which the
loop body leaves as it is when it fails, holds its old contents in the abort state. -/
theorem for_each_counter_abort_get {f : Nat → Counter → Except (Fatal × Counter) Counter} :
    ∀ (cs : List Counter) (i : Nat) (e : Fatal) (cs1 : List Counter),
      for_each_counter f i cs = .error (e, cs1) →
      ∀ (k : Nat) (c : Counter), cs[k]? = some c →
        (∀ e1 c1, f (i + k) c = .error (e1, c1) → c1 = c) →
        (∀ c1, f (i + k) c ≠ .ok c1) →
        cs1[k]? = some c := by
  intro cs
  induction cs with
  | nil =>
    intro i e cs1 h
    simp [for_each_counter] at h
  | cons c cs ih =>
    intro i e cs1 h k c0 hk herr hok
    simp only [for_each_counter] at h
    cases hc : f i c with
    | error e1 =>
      obtain ⟨e1, c1⟩ := e1
      rw [hc] at h
      simp only [Except.error.injEq, Prod.mk.injEq] at h
      obtain ⟨_, h⟩ := h
      subst h
      cases k with
      | zero =>
        simp only [List.getElem?_cons_zero, Option.some.injEq] at hk
        subst hk
        have := herr e1 c1 (by simpa using hc)
        simp [this]
      | succ k => simpa using hk
    | ok c1 =>
      rw [hc] at h
      cases h2 : for_each_counter f (i + 1) cs with
      | ok cs2 => rw [h2] at h; exact absurd h (by simp)
      | error e2 =>
        obtain ⟨e2, cs2⟩ := e2
        rw [h2] at h
        simp only [Except.error.injEq, Prod.mk.injEq] at h
        obtain ⟨_, h⟩ := h
        subst h
        cases k with
        | zero =>
          simp only [List.getElem?_cons_zero, Option.some.injEq] at hk
          subst hk
          exact absurd (by simpa using hc) (hok c1)
        | succ k =>
          simp only [List.getElem?_cons_succ] at hk ⊢
          have e3 : i + (k + 1) = i + 1 + k := by omega
          rw [e3] at herr hok
          exact ih (i + 1) e2 cs2 h2 k c0 hk herr hok

theorem for_each_counter_map_eq {α : Type} (g : Counter → α)
    {f : Nat → Counter → Except (Fatal × Counter) Counter}
    (hf : ∀ k c c1, f k c = .ok c1 → g c1 = g c) :
    ∀ (cs : List Counter) (i : Nat) (cs1 : List Counter),
      for_each_counter f i cs = .ok cs1 → cs1.map g = cs.map g := by
  intro cs
  induction cs with
  | nil =>
    intro i cs1 h
    simp only [for_each_counter, Except.ok.injEq] at h
    subst h; rfl
  | cons c cs ih =>
    intro i cs1 h
    obtain ⟨c1, cs2, hc, h2, rfl⟩ := for_each_counter_cons_ok h
    simp [ih _ _ h2, hf _ _ _ hc]

/-! ## Single counter operations -/

theorem counter_phase_change_not_running {c : Counter} (h : c.running = false)
    (old_phase : Nat) (r : Reading) : counter_phase_change c old_phase r = .ok c := by
  simp [counter_phase_change, h]

/-- A roll that returns was either skipped, or it took a sample that is not below the
base and did the four assignments. -/
theorem counter_phase_change_ok {c c1 : Counter} {old_phase : Nat} {r : Reading}
    (h : counter_phase_change c old_phase r = .ok c1) :
    (c.running = false ∧ c1 = c) ∨
    (c.running = true ∧ old_phase < MAX_PHASES ∧
      ∃ cur, get_current_value c r = .ok cur ∧
        c.start_value.raw_value ≤ cur.raw_value ∧
        c1 = { c with
                last_delta := cur.raw_value - c.start_value.raw_value
                total_count :=
                  (c.total_count + (cur.raw_value - c.start_value.raw_value)) % UINT64_MOD
                count := Function.update c.count old_phase
                  ((c.count old_phase + (cur.raw_value - c.start_value.raw_value)) % UINT64_MOD)
                start_value := cur }) := by
  unfold counter_phase_change at h
  cases hr : c.running with
  | false =>
    rw [hr] at h
    simp only [Bool.false_eq_true, if_false, Except.ok.injEq] at h
    exact Or.inl ⟨rfl, h.symm⟩
  | true =>
    rw [hr] at h
    simp only [if_true] at h
    by_cases hp : old_phase < MAX_PHASES
    · simp only [hp, not_true_eq_false, if_false] at h
      cases hg : get_current_value c r with
      | error e => rw [hg] at h; exact absurd h (by simp)
      | ok cur =>
        rw [hg] at h
        simp only at h
        by_cases hlt : cur.raw_value < c.start_value.raw_value
        · rw [if_pos hlt] at h; exact absurd h (by simp)
        · rw [if_neg hlt] at h
          simp only [Except.ok.injEq] at h
          exact Or.inr ⟨rfl, hp, cur, rfl, Nat.le_of_not_lt hlt, h.symm⟩
    · simp only [hp, not_false_eq_true, if_true] at h
      exact absurd h (by simp)

/-- A roll of a running counter below the capacity, with a sample that is not below the
base, returns. -/
theorem counter_phase_change_running {c : Counter} {old_phase : Nat} {r : Reading}
    {cur : CounterValue} (hr : c.running = true) (hp : old_phase < MAX_PHASES)
    (hg : get_current_value c r = .ok cur)
    (hle : c.start_value.raw_value ≤ cur.raw_value) :
    counter_phase_change c old_phase r =
      .ok { c with
            last_delta := cur.raw_value - c.start_value.raw_value
            total_count :=
              (c.total_count + (cur.raw_value - c.start_value.raw_value)) % UINT64_MOD
            count := Function.update c.count old_phase
              ((c.count old_phase + (cur.raw_value - c.start_value.raw_value)) % UINT64_MOD)
            start_value := cur } := by
  unfold counter_phase_change
  simp only [hr, if_true, hp, not_true_eq_false, if_false, hg]
  rw [if_neg (Nat.not_lt.mpr hle)]

theorem counter_phase_change_abort {c c1 : Counter} {old_phase : Nat} {r : Reading} {e : Fatal}
    (h : counter_phase_change c old_phase r = .error (e, c1)) : c1 = c := by
  unfold counter_phase_change at h
  split at h
  · split at h
    · simp only [Except.error.injEq, Prod.mk.injEq] at h; exact h.2.symm
    · split at h
      · simp only [Except.error.injEq, Prod.mk.injEq] at h; exact h.2.symm
      · split at h
        · simp only [Except.error.injEq, Prod.mk.injEq] at h; exact h.2.symm
        · exact absurd h (by simp)
  · exact absurd h (by simp)

theorem counter_stop_abort {c c1 : Counter} {p : Nat} {r : Reading} {e : Fatal}
    (h : counter_stop c p r = .error (e, c1)) : c1 = c := by
  unfold counter_stop at h
  split at h
  · simp only [Except.error.injEq, Prod.mk.injEq] at h; exact h.2.symm
  · cases hc : counter_phase_change c p r with
    | error e1 =>
      obtain ⟨e1, c2⟩ := e1
      rw [hc] at h
      simp only [Except.error.injEq, Prod.mk.injEq] at h
      rw [← h.2]; exact counter_phase_change_abort hc
    | ok c2 => rw [hc] at h; exact absurd h (by simp)

theorem counter_stop_ok {c c1 : Counter} {p : Nat} {r : Reading}
    (h : counter_stop c p r = .ok c1) :
    c.running = true ∧ ∃ c2, counter_phase_change c p r = .ok c2 ∧
      c1 = { c2 with running := false } := by
  unfold counter_stop at h
  cases hr : c.running with
  | false => rw [hr] at h; simp at h
  | true =>
    rw [hr] at h
    simp only [not_true_eq_false, if_false] at h
    cases hc : counter_phase_change c p r with
    | error e1 => rw [hc] at h; exact absurd h (by simp)
    | ok c2 =>
      rw [hc] at h
      simp only [Except.ok.injEq] at h
      exact ⟨rfl, c2, rfl, h.symm⟩

theorem counter_phase_change_name {c c1 : Counter} {p : Nat} {r : Reading}
    (h : counter_phase_change c p r = .ok c1) : c1.name = c.name ∧ c1.type = c.type := by
  rcases counter_phase_change_ok h with ⟨_, rfl⟩ | ⟨_, _, cur, _, _, rfl⟩ <;> exact ⟨rfl, rfl⟩

theorem counter_stop_name {c c1 : Counter} {p : Nat} {r : Reading}
    (h : counter_stop c p r = .ok c1) : c1.name = c.name ∧ c1.type = c.type := by
  obtain ⟨_, c2, h2, rfl⟩ := counter_stop_ok h
  exact ⟨(counter_phase_change_name h2).1, (counter_phase_change_name h2).2⟩

theorem get_current_value_lt {c : Counter} {r : Reading} {v : CounterValue}
    (h : get_current_value c r = .ok v) : v.raw_value < UINT64_MOD := by
  unfold get_current_value at h
  have hM : 0 < UINT64_MOD := by unfold UINT64_MOD; norm_num
  split at h
  · simp only [Except.ok.injEq] at h
    subst h
    exact Nat.mod_lt _ hM
  · split at h
    · exact absurd h (by simp)
    · split at h
      · exact absurd h (by simp)
      · simp only [Except.ok.injEq] at h
        subst h
        exact Nat.mod_lt _ hM

theorem get_current_value_type {c c1 : Counter} (h : c1.type = c.type) (r : Reading) :
    get_current_value c1 r = get_current_value c r := by
  unfold get_current_value
  rw [h]

theorem counter_start_ok {c c1 : Counter} {r : Reading} (h : counter_start c r = .ok c1) :
    ∃ v, get_current_value c r = .ok v ∧ c1 = { c with running := true, start_value := v } := by
  unfold counter_start at h
  have ht : get_current_value { c with running := true } r = get_current_value c r :=
    get_current_value_type rfl r
  simp only [ht] at h
  cases hg : get_current_value c r with
  | error e => rw [hg] at h; exact absurd h (by simp)
  | ok v =>
    rw [hg] at h
    simp only [Except.ok.injEq] at h
    exact ⟨v, rfl, h.symm⟩

theorem counter_start_of_sample {c : Counter} {r : Reading} {v : CounterValue}
    (h : get_current_value c r = .ok v) :
    counter_start c r = .ok { c with running := true, start_value := v } := by
  unfold counter_start
  have ht : get_current_value { c with running := true } r = get_current_value c r :=
    get_current_value_type rfl r
  simp only [ht, h]

/-! ## Inversion of the entry points -/

theorem phase_boundary_ok {s s1 : State} {env : Nat → Reading}
    (h : phase_boundary s env = .ok s1) :
    (s.gathering_statistics = false ∧ s1 = s) ∨
    (s.gathering_statistics = true ∧ s.current_phase < INT_MAX ∧
      ∃ cs, for_each_counter (fun i c => counter_phase_change c s.current_phase (env i)) 0
          s.counters = .ok cs ∧
        s1 = { s with counters := cs, current_phase := s.current_phase + 1 }) := by
  unfold phase_boundary at h
  cases hg : s.gathering_statistics with
  | false =>
    rw [hg] at h
    simp only [Bool.false_eq_true, if_false, Except.ok.injEq] at h
    exact Or.inl ⟨rfl, h.symm⟩
  | true =>
    rw [hg] at h
    simp only [if_true] at h
    cases hl : for_each_counter (fun i c => counter_phase_change c s.current_phase (env i)) 0
        s.counters with
    | error e => rw [hl] at h; exact absurd h (by simp)
    | ok cs =>
      rw [hl] at h
      simp only at h
      by_cases hi : INT_MAX ≤ s.current_phase
      · rw [if_pos hi] at h; exact absurd h (by simp)
      · rw [if_neg hi] at h
        simp only [Except.ok.injEq] at h
        exact Or.inr ⟨rfl, Nat.lt_of_not_le hi, cs, rfl, h.symm⟩

theorem harness_begin_ok {s s1 : State} {env : Nat → Reading}
    (h : harness_begin s env = .ok s1) :
    ∃ cs, for_each_counter (fun i c => counter_start c (env i)) 0 s.counters = .ok cs ∧
      s1 = { s with gathering_statistics := true, counters := cs } := by
  unfold harness_begin at h
  simp only at h
  cases hl : for_each_counter (fun i c => counter_start c (env i)) 0 s.counters with
  | error e => rw [hl] at h; exact absurd h (by simp)
  | ok cs =>
    rw [hl] at h
    simp only [Except.ok.injEq] at h
    exact ⟨cs, rfl, h.symm⟩

theorem harness_end_ok {s s1 : State} {rep : Report} {env : Nat → Reading}
    (h : harness_end s env = .ok (s1, rep)) :
    ∃ cs, for_each_counter (fun i c => counter_stop c s.current_phase (env i)) 0 s.counters
          = .ok cs ∧
      s1 = { s with counters := cs, gathering_statistics := false } ∧ rep = report s1 := by
  unfold harness_end at h
  cases hl : for_each_counter (fun i c => counter_stop c s.current_phase (env i)) 0
      s.counters with
  | error e => rw [hl] at h; exact absurd h (by simp)
  | ok cs =>
    rw [hl] at h
    simp only [Except.ok.injEq, Prod.mk.injEq] at h
    exact ⟨cs, rfl, h.1.symm, by rw [← h.2, ← h.1]⟩

/-! ## Bucket sums -/

theorem bucket_sum_succ (count : Nat → Nat) (n : Nat) :
    bucket_sum count (n + 1) = bucket_sum count n + count n := by
  unfold bucket_sum
  exact Finset.sum_range_succ _ _

theorem bucket_sum_update_ge (count : Nat → Nat) (n p v : Nat) (h : n ≤ p) :
    bucket_sum (Function.update count p v) n = bucket_sum count n := by
  unfold bucket_sum
  apply Finset.sum_congr rfl
  intro j hj
  have : j ≠ p := by
    have := Finset.mem_range.mp hj
    omega
  simp [Function.update, this]

theorem bucket_sum_update_last (count : Nat → Nat) (p v : Nat) :
    bucket_sum (Function.update count p v) (p + 1) = bucket_sum count p + v := by
  rw [bucket_sum_succ, bucket_sum_update_ge count p p v (Nat.le_refl p)]
  simp

/-- Buckets that are zero from index `n` on do not contribute to a longer sum. -/
theorem bucket_sum_of_zero_tail (count : Nat → Nat) (n : Nat)
    (h : ∀ j, n ≤ j → count j = 0) : ∀ m, n ≤ m → bucket_sum count m = bucket_sum count n := by
  intro m hm
  induction m with
  | zero =>
    have : n = 0 := by omega
    subst this; rfl
  | succ m ih =>
    rcases Nat.eq_or_lt_of_le hm with h1 | h1
    · rw [h1]
    · have hnm : n ≤ m := by omega
      rw [bucket_sum_succ, ih hnm, h m hnm]
      simp

theorem bucket_sum_all_buckets {cp : Nat} {c : Counter} (h : Accounted cp c) :
    bucket_sum c.count MAX_PHASES = bucket_sum c.count (cp + 1) := by
  obtain ⟨_, hz, hm⟩ := h
  rcases Nat.le_total (cp + 1) MAX_PHASES with h1 | h1
  · exact bucket_sum_of_zero_tail c.count (cp + 1) (fun j hj => hz j (by omega)) _ h1
  · exact (bucket_sum_of_zero_tail c.count MAX_PHASES hm _ h1).symm

/-! ## The accounting invariant -/

theorem accounted_roll {cp : Nat} {c c1 : Counter} {r : Reading}
    (h : counter_phase_change c cp r = .ok c1) (ha : Accounted cp c) : Accounted cp c1 := by
  rcases counter_phase_change_ok h with ⟨_, rfl⟩ | ⟨_, hp, cur, _, _, rfl⟩
  · exact ha
  · obtain ⟨ht, hz, hm⟩ := ha
    refine ⟨?_, ?_, ?_⟩
    · simp only
      rw [bucket_sum_update_last, ht, bucket_sum_succ]
      unfold UINT64_MOD
      omega
    · intro j hj
      have : j ≠ cp := by omega
      simp [Function.update, this, hz j hj]
    · intro j hj
      have : j ≠ cp := by omega
      simp [Function.update, this, hm j hj]

theorem accounted_advance {cp : Nat} {c : Counter} (ha : Accounted cp c) :
    Accounted (cp + 1) c := by
  obtain ⟨ht, hz, hm⟩ := ha
  refine ⟨?_, fun j hj => hz j (by omega), hm⟩
  rw [bucket_sum_succ, hz (cp + 1) (by omega)]
  simpa using ht

theorem bounded_roll {cp : Nat} {c c1 : Counter} {r : Reading}
    (h : counter_phase_change c cp r = .ok c1) (hb : Bounded cp c) : Bounded cp c1 := by
  rcases counter_phase_change_ok h with ⟨_, rfl⟩ | ⟨_, hp, cur, hg, hle, rfl⟩
  · exact hb
  · obtain ⟨hs, hlt⟩ := hb
    have hcur := get_current_value_lt hg
    refine ⟨?_, hcur⟩
    simp only
    rw [bucket_sum_update_last]
    rw [bucket_sum_succ] at hs
    unfold UINT64_MOD at *
    omega

theorem bounded_advance {cp : Nat} {c : Counter} (ha : Accounted cp c) (hb : Bounded cp c) :
    Bounded (cp + 1) c := by
  obtain ⟨hs, hlt⟩ := hb
  refine ⟨?_, hlt⟩
  rw [bucket_sum_succ, ha.2.1 (cp + 1) (by omega)]
  simpa using hs

/-- Inside the first window the total is the exact sum of the buckets. -/
theorem total_eq_bucket_sum {cp : Nat} {c : Counter} (ha : Accounted cp c)
    (hb : Bounded cp c) : c.total_count = bucket_sum c.count (cp + 1) := by
  have h1 := ha.1
  have h2 : bucket_sum c.count (cp + 1) < UINT64_MOD := Nat.lt_of_le_of_lt hb.1 hb.2
  rw [Nat.mod_eq_of_lt h2] at h1
  exact h1

/-! ## Invariants of the entry points -/

/-- A property of the counters that every roll keeps and that survives the increment of
the phase index is kept by a notification. -/
theorem phase_boundary_inv (P : Nat → Counter → Prop)
    (hroll : ∀ cp c c1 r, counter_phase_change c cp r = .ok c1 → P cp c → P cp c1)
    (hadv : ∀ cp c, P cp c → P (cp + 1) c)
    {s s1 : State} {env : Nat → Reading} (h : phase_boundary s env = .ok s1)
    (hs : ∀ c ∈ s.counters, P s.current_phase c) :
    ∀ c ∈ s1.counters, P s1.current_phase c := by
  rcases phase_boundary_ok h with ⟨_, rfl⟩ | ⟨_, _, cs, hl, rfl⟩
  · exact hs
  · intro c1 hc1
    obtain ⟨c, hc, k, hk⟩ := for_each_counter_mem hl hc1
    exact hadv _ _ (hroll _ _ _ _ hk (hs c hc))

theorem harness_end_inv (P : Nat → Counter → Prop)
    (hroll : ∀ cp c c1 r, counter_phase_change c cp r = .ok c1 → P cp c → P cp c1)
    (hstop : ∀ cp c, P cp c → P cp { c with running := false })
    {s s1 : State} {rep : Report} {env : Nat → Reading}
    (h : harness_end s env = .ok (s1, rep))
    (hs : ∀ c ∈ s.counters, P s.current_phase c) :
    ∀ c ∈ s1.counters, P s1.current_phase c := by
  obtain ⟨cs, hl, rfl, _⟩ := harness_end_ok h
  intro c1 hc1
  obtain ⟨c, hc, k, hk⟩ := for_each_counter_mem hl hc1
  obtain ⟨_, c2, h2, rfl⟩ := counter_stop_ok hk
  exact hstop _ _ (hroll _ _ _ _ h2 (hs c hc))

theorem harness_begin_inv (P : Nat → Counter → Prop)
    (hstart : ∀ cp c v r, get_current_value c r = .ok v → P cp c →
      P cp { c with running := true, start_value := v })
    {s s1 : State} {env : Nat → Reading} (h : harness_begin s env = .ok s1)
    (hs : ∀ c ∈ s.counters, P s.current_phase c) :
    ∀ c ∈ s1.counters, P s1.current_phase c := by
  obtain ⟨cs, hl, rfl⟩ := harness_begin_ok h
  intro c1 hc1
  obtain ⟨c, hc, k, hk⟩ := for_each_counter_mem hl hc1
  obtain ⟨v, hv, rfl⟩ := counter_start_ok hk
  exact hstart _ _ _ _ hv (hs c hc)

theorem boundary_call_exec (b : Boundary) (env : Nat → Reading) (s : State) :
    (b.call env).exec s = phase_boundary s env := by
  cases b <;> rfl

theorem deliver_nil (env : Nat → Nat → Reading) (s : State) (j : Nat) :
    deliver env s j [] = .ok s := rfl

theorem deliver_cons (env : Nat → Nat → Reading) (s : State) (j : Nat) (b : Boundary)
    (bs : List Boundary) :
    deliver env s j (b :: bs) =
      match phase_boundary s (env j) with
      | .error e => .error e
      | .ok s1 => deliver env s1 (j + 1) bs := by
  simp only [deliver, boundary_calls, run_calls, boundary_call_exec]

theorem deliver_cons_ok {env : Nat → Nat → Reading} {s s2 : State} {j : Nat} {b : Boundary}
    {bs : List Boundary} (h : deliver env s j (b :: bs) = .ok s2) :
    ∃ s1, phase_boundary s (env j) = .ok s1 ∧ deliver env s1 (j + 1) bs = .ok s2 := by
  rw [deliver_cons] at h
  cases hp : phase_boundary s (env j) with
  | error e => rw [hp] at h; exact absurd h (by simp)
  | ok s1 => rw [hp] at h; exact ⟨s1, rfl, h⟩

theorem deliver_inv (P : Nat → Counter → Prop)
    (hroll : ∀ cp c c1 r, counter_phase_change c cp r = .ok c1 → P cp c → P cp c1)
    (hadv : ∀ cp c, P cp c → P (cp + 1) c) (env : Nat → Nat → Reading) :
    ∀ (kinds : List Boundary) (s s1 : State) (j : Nat),
      deliver env s j kinds = .ok s1 →
      (∀ c ∈ s.counters, P s.current_phase c) →
      ∀ c ∈ s1.counters, P s1.current_phase c := by
  intro kinds
  induction kinds with
  | nil =>
    intro s s1 j h hs
    rw [deliver_nil] at h
    simp only [Except.ok.injEq] at h
    subst h; exact hs
  | cons b bs ih =>
    intro s s1 j h hs
    obtain ⟨s2, h2, h3⟩ := deliver_cons_ok h
    exact ih s2 s1 (j + 1) h3 (phase_boundary_inv P hroll hadv h2 hs)

theorem window_state_ok {s s2 : State} {kinds : List Boundary} {env : Nat → Nat → Reading}
    (h : window_state s kinds env = .ok s2) :
    ∃ s1, harness_begin s (env 0) = .ok s1 ∧ deliver env s1 1 kinds = .ok s2 := by
  unfold window_state at h
  cases hb : harness_begin s (env 0) with
  | error e => rw [hb] at h; exact absurd h (by simp)
  | ok s1 => rw [hb] at h; exact ⟨s1, rfl, h⟩

theorem window_ok {s s3 : State} {rep : Report} {kinds : List Boundary}
    {env : Nat → Nat → Reading} (h : window s kinds env = .ok (s3, rep)) :
    ∃ s2, window_state s kinds env = .ok s2 ∧
      harness_end s2 (env (kinds.length + 1)) = .ok (s3, rep) := by
  unfold window at h
  unfold window_state
  cases hb : harness_begin s (env 0) with
  | error e => rw [hb] at h; exact absurd h (by simp)
  | ok s1 =>
    rw [hb] at h
    simp only at h ⊢
    cases hd : deliver env s1 1 kinds with
    | error e => rw [hd] at h; exact absurd h (by simp)
    | ok s2 => rw [hd] at h; exact ⟨s2, rfl, h⟩

theorem exact_roll (cp : Nat) (c c1 : Counter) (r : Reading)
    (h : counter_phase_change c cp r = .ok c1) (he : Exact cp c) : Exact cp c1 :=
  ⟨accounted_roll h he.1, bounded_roll h he.2⟩

theorem exact_advance (cp : Nat) (c : Counter) (he : Exact cp c) : Exact (cp + 1) c :=
  ⟨accounted_advance he.1, bounded_advance he.1 he.2⟩

theorem setup_counters_fresh (fd0 : Int) (perf_events : List (String × Int)) :
    ∀ c ∈ (setup_counters fd0 perf_events).counters,
      c.running = false ∧ c.total_count = 0 ∧ c.last_delta = 0 ∧ (∀ j, c.count j = 0) ∧
        c.start_value = { raw_value := 0, aux_value := 0 } := by
  intro c hc
  simp only [setup_counters, List.mem_cons, List.mem_map] at hc
  rcases hc with rfl | rfl | ⟨e, _, rfl⟩
  · exact ⟨rfl, rfl, rfl, fun _ => rfl, rfl⟩
  · exact ⟨rfl, rfl, rfl, fun _ => rfl, rfl⟩
  · exact ⟨rfl, rfl, rfl, fun _ => rfl, rfl⟩

theorem bucket_sum_zero (count : Nat → Nat) (h : ∀ j, count j = 0) (n : Nat) :
    bucket_sum count n = 0 := by
  unfold bucket_sum
  exact Finset.sum_eq_zero (fun j _ => h j)

theorem setup_counters_accounted (fd0 : Int) (perf_events : List (String × Int)) :
    ∀ c ∈ (setup_counters fd0 perf_events).counters,
      Accounted (setup_counters fd0 perf_events).current_phase c := by
  intro c hc
  obtain ⟨_, ht, _, hz, _⟩ := setup_counters_fresh fd0 perf_events c hc
  refine ⟨?_, fun j _ => hz j, fun j _ => hz j⟩
  rw [ht, bucket_sum_zero _ hz]
  rfl

/-- After `harness_begin` in the initial state the exact accounting holds. -/
theorem harness_begin_exact {fd0 : Int} {perf_events : List (String × Int)} {s1 : State}
    {env : Nat → Reading} (h : harness_begin (setup_counters fd0 perf_events) env = .ok s1) :
    ∀ c ∈ s1.counters, Exact s1.current_phase c := by
  obtain ⟨cs, hl, rfl⟩ := harness_begin_ok h
  intro c1 hc1
  obtain ⟨c, hc, k, hk⟩ := for_each_counter_mem hl hc1
  obtain ⟨v, hv, rfl⟩ := counter_start_ok hk
  obtain ⟨_, ht, _, hz, _⟩ := setup_counters_fresh fd0 perf_events c hc
  refine ⟨⟨?_, fun j _ => hz j, fun j _ => hz j⟩, ?_, get_current_value_lt hv⟩
  · simp only
    rw [ht, bucket_sum_zero _ hz]
    rfl
  · simp only
    rw [bucket_sum_zero _ hz]
    exact Nat.zero_le _

theorem window_state_exact {fd0 : Int} {perf_events : List (String × Int)}
    {kinds : List Boundary} {env : Nat → Nat → Reading} {s2 : State}
    (h : window_state (setup_counters fd0 perf_events) kinds env = .ok s2) :
    ∀ c ∈ s2.counters, Exact s2.current_phase c := by
  obtain ⟨s1, hb, hd⟩ := window_state_ok h
  exact deliver_inv Exact exact_roll exact_advance env kinds s1 s2 1 hd (harness_begin_exact hb)

theorem window_exact {fd0 : Int} {perf_events : List (String × Int)}
    {kinds : List Boundary} {env : Nat → Nat → Reading} {s3 : State} {rep : Report}
    (h : window (setup_counters fd0 perf_events) kinds env = .ok (s3, rep)) :
    ∀ c ∈ s3.counters, Exact s3.current_phase c := by
  obtain ⟨s2, h2, he⟩ := window_ok h
  exact harness_end_inv Exact exact_roll (fun _ _ hx => hx) he (window_state_exact h2)

/-! ## Exactness of the accounting -/

/-- C1: from the initial state, in the initial state itself, in every state reached by
`harness_begin` followed by any number of boundary notifications, and in the state after a
`harness_end` that completes the window, every counter's `total_count` is the sum of all
`MAX_PHASES` phase buckets and also the sum of the buckets `0 .. current_phase`. -/
theorem C1_total_count_is_bucket_sum (fd0 : Int) (perf_events : List (String × Int))
    (kinds : List Boundary) (env : Nat → Nat → Reading) :
    (∀ c ∈ (setup_counters fd0 perf_events).counters,
      c.total_count = bucket_sum c.count MAX_PHASES ∧
      c.total_count = bucket_sum c.count ((setup_counters fd0 perf_events).current_phase + 1)) ∧
    (∀ s2, window_state (setup_counters fd0 perf_events) kinds env = .ok s2 →
      ∀ c ∈ s2.counters,
        c.total_count = bucket_sum c.count MAX_PHASES ∧
        c.total_count = bucket_sum c.count (s2.current_phase + 1)) ∧
    (∀ s3 rep, window (setup_counters fd0 perf_events) kinds env = .ok (s3, rep) →
      ∀ c ∈ s3.counters,
        c.total_count = bucket_sum c.count MAX_PHASES ∧
        c.total_count = bucket_sum c.count (s3.current_phase + 1)) := by
  refine ⟨?_, ?_, ?_⟩
  · intro c hc
    obtain ⟨_, ht, _, hz, _⟩ := setup_counters_fresh fd0 perf_events c hc
    rw [ht, bucket_sum_zero _ hz, bucket_sum_zero _ hz]
    exact ⟨rfl, rfl⟩
  · intro s2 h c hc
    have he := window_state_exact h c hc
    have ht := total_eq_bucket_sum he.1 he.2
    exact ⟨by rw [bucket_sum_all_buckets he.1]; exact ht, ht⟩
  · intro s3 rep h c hc
    have he := window_exact h c hc
    have ht := total_eq_bucket_sum he.1 he.2
    exact ⟨by rw [bucket_sum_all_buckets he.1]; exact ht, ht⟩

/-- Witness of C1: the window with raw values `1000, 1100, 1150, 1180` completes and its
totals are the sums of the buckets. -/
theorem C1_total_count_is_bucket_sum_witness :
    ∃ s3 rep, window (setup_counters 3 []) [Boundary.start, Boundary.finish]
        (env_of example_raw) = .ok (s3, rep) ∧
      ∀ c ∈ s3.counters,
        c.total_count = bucket_sum c.count MAX_PHASES ∧
        c.total_count = bucket_sum c.count (s3.current_phase + 1) :=
  ⟨_, _, rfl,
    (C1_total_count_is_bucket_sum 3 [] [Boundary.start, Boundary.finish]
      (env_of example_raw)).2.2 _ _ rfl⟩

/-! ## The split by parity -/

/-- The loop of `counter_get_total` adds to `sum` the buckets from `i` up to
`current_phase` whose index has the parity of `i`. -/
theorem counter_get_total_loop_eq (count : Nat → Nat) (cp : Nat) :
    ∀ (n i : Nat) (sum : ℚ), cp + 1 - i = n →
      counter_get_total_loop count cp i sum =
        sum + ((∑ j in (Finset.range (cp + 1)).filter (fun j => i ≤ j ∧ j % 2 = i % 2),
          count j : Nat) : ℚ) := by
  intro n
  induction n using Nat.strong_induction_on with
  | _ n ih =>
    intro i sum hn
    rw [counter_get_total_loop]
    by_cases h : i ≤ cp
    · rw [if_pos h]
      rw [ih (cp + 1 - (i + 2)) (by omega) (i + 2) _ rfl]
      have hset : (Finset.range (cp + 1)).filter (fun j => i ≤ j ∧ j % 2 = i % 2) =
          insert i ((Finset.range (cp + 1)).filter
            (fun j => i + 2 ≤ j ∧ j % 2 = (i + 2) % 2)) := by
        ext j
        simp only [Finset.mem_filter, Finset.mem_range, Finset.mem_insert]
        constructor
        · rintro ⟨h1, h2, h3⟩
          by_cases hji : j = i
          · exact Or.inl hji
          · refine Or.inr ⟨h1, ?_, ?_⟩ <;> omega
        · rintro (rfl | ⟨h1, h2, h3⟩)
          · exact ⟨by omega, Nat.le_refl _, rfl⟩
          · refine ⟨h1, ?_, ?_⟩ <;> omega
      have hnot : i ∉ (Finset.range (cp + 1)).filter
          (fun j => i + 2 ≤ j ∧ j % 2 = (i + 2) % 2) := by
        simp only [Finset.mem_filter, Finset.mem_range, not_and]
        intro _ h2
        omega
      rw [hset, Finset.sum_insert hnot]
      push_cast
      ring
    · rw [if_neg h]
      have hset : (Finset.range (cp + 1)).filter (fun j => i ≤ j ∧ j % 2 = i % 2) = ∅ := by
        ext j
        simp only [Finset.mem_filter, Finset.mem_range, Finset.not_mem_empty, iff_false,
          not_and]
        intro h1 h2
        omega
      rw [hset]
      simp

theorem counter_get_total_loop_mutator (count : Nat → Nat) (cp : Nat) :
    counter_get_total_loop count cp 0 0 = (parity_sum count cp 0 : ℚ) := by
  rw [counter_get_total_loop_eq count cp _ 0 0 rfl]
  unfold parity_sum
  simp

theorem counter_get_total_loop_stw (count : Nat → Nat) (cp : Nat) :
    counter_get_total_loop count cp 1 0 = (parity_sum count cp 1 : ℚ) := by
  rw [counter_get_total_loop_eq count cp _ 1 0 rfl]
  unfold parity_sum
  have hset : (Finset.range (cp + 1)).filter (fun j => 1 ≤ j ∧ j % 2 = 1 % 2) =
      (Finset.range (cp + 1)).filter (fun j => j % 2 = 1) := by
    ext j
    simp only [Finset.mem_filter, Finset.mem_range]
    constructor
    · rintro ⟨h1, _, h3⟩; exact ⟨h1, by omega⟩
    · rintro ⟨h1, h3⟩; exact ⟨h1, by omega, by omega⟩
  rw [hset]
  simp

theorem parity_sum_add (count : Nat → Nat) (cp : Nat) :
    parity_sum count cp 0 + parity_sum count cp 1 = bucket_sum count (cp + 1) := by
  unfold parity_sum bucket_sum
  have hset : (Finset.range (cp + 1)).filter (fun j => j % 2 = 1) =
      (Finset.range (cp + 1)).filter (fun j => ¬ j % 2 = 0) := by
    apply Finset.filter_congr
    intro j _
    omega
  rw [hset]
  exact Finset.sum_filter_add_sum_filter_not _ _ _

/-- What `counter_get_total` returns, in terms of the total and of the parity sums. -/
theorem counter_get_total_eq (c : Counter) (cp : Nat) (mutator : Bool) :
    counter_get_total c cp true mutator =
      (if c.type = CounterType.Time then (c.total_count : ℚ) / 1000000
       else (c.total_count : ℚ)) ∧
    counter_get_total c cp false true =
      (if c.type = CounterType.Time then (parity_sum c.count cp 0 : ℚ) / 1000000
       else (parity_sum c.count cp 0 : ℚ)) ∧
    counter_get_total c cp false false =
      (if c.type = CounterType.Time then (parity_sum c.count cp 1 : ℚ) / 1000000
       else (parity_sum c.count cp 1 : ℚ)) := by
  refine ⟨?_, ?_, ?_⟩
  · simp [counter_get_total]
  · simp [counter_get_total, counter_get_total_loop_mutator]
  · simp [counter_get_total, counter_get_total_loop_stw]

theorem call_exec_accounted {s s1 : State} {call : Call} (h : call.exec s = .ok s1)
    (hs : ∀ c ∈ s.counters, Accounted s.current_phase c) :
    ∀ c ∈ s1.counters, Accounted s1.current_phase c := by
  cases call with
  | harness_begin env =>
    exact harness_begin_inv Accounted (fun _ _ _ _ _ hx => hx) h hs
  | GarbageCollectionStart env =>
    exact phase_boundary_inv Accounted (fun _ _ _ _ h1 h2 => accounted_roll h1 h2)
      (fun _ _ hx => accounted_advance hx) h hs
  | GarbageCollectionFinish env =>
    exact phase_boundary_inv Accounted (fun _ _ _ _ h1 h2 => accounted_roll h1 h2)
      (fun _ _ hx => accounted_advance hx) h hs
  | harness_end env =>
    simp only [Call.exec] at h
    cases he : harness_end s env with
    | error e => rw [he] at h; exact absurd h (by simp)
    | ok p =>
      obtain ⟨s2, rep⟩ := p
      rw [he] at h
      simp only [Except.ok.injEq] at h
      subst h
      exact harness_end_inv Accounted (fun _ _ _ _ h1 h2 => accounted_roll h1 h2)
        (fun _ _ hx => hx) he hs

theorem run_calls_accounted :
    ∀ (calls : List Call) (s s1 : State), run_calls s calls = .ok s1 →
      (∀ c ∈ s.counters, Accounted s.current_phase c) →
      ∀ c ∈ s1.counters, Accounted s1.current_phase c := by
  intro calls
  induction calls with
  | nil =>
    intro s s1 h hs
    simp only [run_calls, Except.ok.injEq] at h
    subst h; exact hs
  | cons call calls ih =>
    intro s s1 h hs
    simp only [run_calls] at h
    cases he : call.exec s with
    | error e => rw [he] at h; exact absurd h (by simp)
    | ok s2 =>
      rw [he] at h
      exact ih s2 s1 h (call_exec_accounted he hs)

/-! ## One window with known samples -/

theorem for_each_counter_pointwise {f : Nat → Counter → Except (Fatal × Counter) Counter}
    (Q : Nat → Counter → Prop) (cs : List Counter) (i : Nat)
    (h : ∀ (k : Nat) (c : Counter), cs[k]? = some c → ∃ c1, f (i + k) c = .ok c1 ∧ Q k c1) :
    ∃ cs1, for_each_counter f i cs = .ok cs1 ∧ cs1.length = cs.length ∧
      ∀ (k : Nat) (c1 : Counter), cs1[k]? = some c1 → Q k c1 := by
  obtain ⟨cs1, hcs1⟩ := for_each_counter_complete cs i
    (fun k c hk => (h k c hk).imp (fun _ hx => hx.1))
  refine ⟨cs1, hcs1, for_each_counter_length cs i cs1 hcs1, ?_⟩
  intro k c1 hk
  obtain ⟨c, hc, hf⟩ := for_each_counter_get cs i cs1 hcs1 k c1 hk
  obtain ⟨c2, hf2, hq⟩ := h k c hc
  rw [hf] at hf2
  simp only [Except.ok.injEq] at hf2
  subst hf2
  exact hq

theorem raw_chain (raw : Nat → Nat) (K : Nat) (h : ∀ m, m < K → raw m ≤ raw (m + 1)) :
    ∀ j, j ≤ K → raw 0 ≤ raw j := by
  intro j
  induction j with
  | zero => intro _; exact Nat.le_refl _
  | succ j ih =>
    intro hj
    exact Nat.le_trans (ih (by omega)) (h j (by omega))

theorem tracks_roll {raw : Nat → Nat} {j : Nat} {c : Counter} {r : Reading} {v : CounterValue}
    (ht : Tracks raw j c) (hr : c.running = true) (hj : j < MAX_PHASES)
    (hg : get_current_value c r = .ok v) (hv : v.raw_value = raw (j + 1))
    (h0 : raw 0 ≤ raw j) (h1 : raw j ≤ raw (j + 1)) :
    ∃ c1, counter_phase_change c j r = .ok c1 ∧ c1.running = true ∧ c1.type = c.type ∧
      c1.name = c.name ∧ Tracks raw (j + 1) c1 := by
  obtain ⟨hs, hlo, hhi, htot⟩ := ht
  have hle : c.start_value.raw_value ≤ v.raw_value := by rw [hs, hv]; exact h1
  have hlt := get_current_value_lt hg
  refine ⟨_, counter_phase_change_running hr hj hg hle, hr, rfl, rfl, ?_⟩
  refine ⟨hv, ?_, ?_, ?_⟩
  · intro p hp
    by_cases hpj : p = j
    · subst hpj
      simp only [Function.update_same]
      rw [hhi p (Nat.le_refl p), hs, hv, Nat.zero_add]
      apply Nat.mod_eq_of_lt
      rw [hv] at hlt
      omega
    · simp only [Function.update, hpj, dite_false]
      exact hlo p (by omega)
  · intro p hp
    have hpj : p ≠ j := by omega
    simp only [Function.update, hpj, dite_false]
    exact hhi p (by omega)
  · simp only
    rw [htot, hs, hv]
    rw [hv] at hlt
    have e : raw j - raw 0 + (raw (j + 1) - raw j) = raw (j + 1) - raw 0 := by omega
    rw [e]
    apply Nat.mod_eq_of_lt
    omega

theorem phase_boundary_in_window {cs0 : List Counter} {S : Nat → Nat → Nat} {j K : Nat}
    {s : State} (env : Nat → Reading)
    (hin : InWindow cs0 S j s) (hj : j < MAX_PHASES) (hK : j < K)
    (hS : ∀ i c0, cs0[i]? = some c0 →
      ∃ v, get_current_value c0 (env i) = .ok v ∧ v.raw_value = S (j + 1) i)
    (hmono : ∀ m, m < K → ∀ i, S m i ≤ S (m + 1) i) :
    ∃ s1, phase_boundary s env = .ok s1 ∧ InWindow cs0 S (j + 1) s1 := by
  obtain ⟨hcp, hg, hlen, hc⟩ := hin
  have hpt := for_each_counter_pointwise
    (f := fun i c => counter_phase_change c s.current_phase (env i))
    (fun i c1 => c1.running = true ∧
      (∃ c0, cs0[i]? = some c0 ∧ c1.type = c0.type ∧ c1.name = c0.name) ∧
      Tracks (fun m => S m i) (j + 1) c1) s.counters 0 (by
      intro i c hi
      obtain ⟨hr, ⟨c0, h0, hty, hnm⟩, ht⟩ := hc i c hi
      obtain ⟨v, hv, hvr⟩ := hS i c0 h0
      have hv1 : get_current_value c (env (0 + i)) = .ok v := by
        rw [Nat.zero_add, get_current_value_type hty]; exact hv
      have hchain := raw_chain (fun m => S m i) K (fun m hm => hmono m hm i) j (by omega)
      obtain ⟨c1, h1, hr1, hty1, hnm1, ht1⟩ :=
        tracks_roll ht hr hj hv1 hvr hchain (hmono j hK i)
      rw [hcp]
      exact ⟨c1, h1, hr1, ⟨c0, h0, hty1.trans hty, hnm1.trans hnm⟩, ht1⟩)
  obtain ⟨cs1, hl, hlen1, hq⟩ := hpt
  have hint : ¬ INT_MAX ≤ s.current_phase := by
    rw [hcp]
    unfold INT_MAX
    unfold MAX_PHASES at hj
    have : (1 <<< 14 : Nat) = 16384 := by decide
    omega
  refine ⟨{ s with counters := cs1, current_phase := s.current_phase + 1 }, ?_, ?_⟩
  · unfold phase_boundary
    simp only [hg, if_true, hl]
    rw [if_neg hint]
  · exact ⟨by simp [hcp], hg, by simpa using hlen1.trans hlen, hq⟩

theorem deliver_in_window {cs0 : List Counter} {S : Nat → Nat → Nat} {K : Nat}
    {env : Nat → Nat → Reading}
    (hS : ∀ m, m ≤ K → ∀ i c0, cs0[i]? = some c0 →
      ∃ v, get_current_value c0 (env m i) = .ok v ∧ v.raw_value = S m i)
    (hmono : ∀ m, m < K → ∀ i, S m i ≤ S (m + 1) i) :
    ∀ (kinds : List Boundary) (j : Nat) (s : State),
      InWindow cs0 S j s → j + kinds.length ≤ MAX_PHASES → j + kinds.length ≤ K →
      ∃ s1, deliver env s (j + 1) kinds = .ok s1 ∧ InWindow cs0 S (j + kinds.length) s1 := by
  intro kinds
  induction kinds with
  | nil =>
    intro j s hin _ _
    exact ⟨s, deliver_nil env s (j + 1), by simpa using hin⟩
  | cons b bs ih =>
    intro j s hin hM hK
    simp only [List.length_cons] at hM hK
    obtain ⟨s1, h1, hin1⟩ := phase_boundary_in_window (K := K) (env (j + 1)) hin
      (by omega) (by omega) (fun i c0 h0 => hS (j + 1) (by omega) i c0 h0) hmono
    obtain ⟨s2, h2, hin2⟩ := ih (j + 1) s1 hin1 (by omega) (by omega)
    refine ⟨s2, ?_, ?_⟩
    · rw [deliver_cons, h1]
      exact h2
    · simp only [List.length_cons]
      have e : j + (bs.length + 1) = j + 1 + bs.length := by omega
      rw [e]; exact hin2

theorem harness_begin_in_window {fd0 : Int} {perf_events : List (String × Int)}
    {S : Nat → Nat → Nat} (env : Nat → Reading)
    (hS : ∀ i c0, (setup_counters fd0 perf_events).counters[i]? = some c0 →
      ∃ v, get_current_value c0 (env i) = .ok v ∧ v.raw_value = S 0 i) :
    ∃ s1, harness_begin (setup_counters fd0 perf_events) env = .ok s1 ∧
      InWindow (setup_counters fd0 perf_events).counters S 0 s1 := by
  have hpt := for_each_counter_pointwise
    (f := fun i c => counter_start c (env i))
    (fun i c1 => c1.running = true ∧
      (∃ c0, (setup_counters fd0 perf_events).counters[i]? = some c0 ∧
        c1.type = c0.type ∧ c1.name = c0.name) ∧
      Tracks (fun m => S m i) 0 c1) (setup_counters fd0 perf_events).counters 0 (by
      intro i c hi
      obtain ⟨v, hv, hvr⟩ := hS i c hi
      obtain ⟨_, ht, _, hz, _⟩ := setup_counters_fresh fd0 perf_events c (List.getElem?_mem hi)
      refine ⟨{ c with running := true, start_value := v }, ?_, rfl,
        ⟨c, hi, rfl, rfl⟩, hvr, ?_, fun p _ => hz p, ?_⟩
      · simp only [Nat.zero_add]
        exact counter_start_of_sample hv
      · intro p hp; omega
      · simp only [ht]; omega)
  obtain ⟨cs1, hl, hlen1, hq⟩ := hpt
  refine ⟨{ setup_counters fd0 perf_events with
            gathering_statistics := true, counters := cs1 }, ?_, ?_⟩
  · unfold harness_begin
    simp only [hl]
  · exact ⟨rfl, rfl, hlen1, hq⟩

theorem harness_end_in_window {cs0 : List Counter} {S : Nat → Nat → Nat} {k : Nat}
    {s : State} (env : Nat → Reading)
    (hin : InWindow cs0 S k s) (hk : k < MAX_PHASES)
    (hS : ∀ i c0, cs0[i]? = some c0 →
      ∃ v, get_current_value c0 (env i) = .ok v ∧ v.raw_value = S (k + 1) i)
    (hmono : ∀ m, m < k + 1 → ∀ i, S m i ≤ S (m + 1) i) :
    ∃ s3, harness_end s env = .ok (s3, report s3) ∧ AfterWindow cs0 S k s3 := by
  obtain ⟨hcp, hg, hlen, hc⟩ := hin
  have hpt := for_each_counter_pointwise
    (f := fun i c => counter_stop c s.current_phase (env i))
    (fun i c1 => c1.running = false ∧
      (∃ c0, cs0[i]? = some c0 ∧ c1.type = c0.type ∧ c1.name = c0.name) ∧
      Tracks (fun m => S m i) (k + 1) c1) s.counters 0 (by
      intro i c hi
      obtain ⟨hr, ⟨c0, h0, hty, hnm⟩, ht⟩ := hc i c hi
      obtain ⟨v, hv, hvr⟩ := hS i c0 h0
      have hv1 : get_current_value c (env (0 + i)) = .ok v := by
        rw [Nat.zero_add, get_current_value_type hty]; exact hv
      have hchain := raw_chain (fun m => S m i) (k + 1) (fun m hm => hmono m hm i) k
        (by omega)
      obtain ⟨c1, h1, hr1, hty1, hnm1, ht1⟩ :=
        tracks_roll ht hr hk hv1 hvr hchain (hmono k (by omega) i)
      refine ⟨{ c1 with running := false }, ?_, rfl, ⟨c0, h0, hty1.trans hty, hnm1.trans hnm⟩,
        ht1⟩
      unfold counter_stop
      rw [hcp]
      simp only [hr, not_true_eq_false, if_false, h1])
  obtain ⟨cs1, hl, hlen1, hq⟩ := hpt
  refine ⟨{ s with counters := cs1, gathering_statistics := false }, ?_, ?_⟩
  · unfold harness_end
    simp only [hl]
  · exact ⟨hcp, rfl, hlen1.trans hlen, hq⟩

/-- A window from the initial state in which every read succeeds and no counter's raw
value decreases completes, and leaves in every counter the differences of its successive
raw values. -/
theorem window_tracks (fd0 : Int) (perf_events : List (String × Int))
    (kinds : List Boundary) (env : Nat → Nat → Reading) (S : Nat → Nat → Nat)
    (hk : kinds.length < MAX_PHASES)
    (hS : ∀ m, m ≤ kinds.length + 1 → ∀ i c0,
      (setup_counters fd0 perf_events).counters[i]? = some c0 →
      ∃ v, get_current_value c0 (env m i) = .ok v ∧ v.raw_value = S m i)
    (hmono : ∀ m, m < kinds.length + 1 → ∀ i, S m i ≤ S (m + 1) i) :
    ∃ s3, window (setup_counters fd0 perf_events) kinds env = .ok (s3, report s3) ∧
      AfterWindow (setup_counters fd0 perf_events).counters S kinds.length s3 := by
  obtain ⟨s1, h1, hin1⟩ := harness_begin_in_window (S := S) (env 0)
    (fun i c0 h0 => hS 0 (by omega) i c0 h0)
  obtain ⟨s2, h2, hin2⟩ := deliver_in_window hS hmono kinds 0 s1 hin1 (by omega) (by omega)
  rw [Nat.zero_add] at h2 hin2
  obtain ⟨s3, h3, hin3⟩ := harness_end_in_window (env (kinds.length + 1)) hin2 hk
    (fun i c0 h0 => hS (kinds.length + 1) (Nat.le_refl _) i c0 h0) hmono
  refine ⟨s3, ?_, hin3⟩
  unfold window
  simp only [h1, h2]
  exact h3

theorem parity_sum_two (count : Nat → Nat) :
    parity_sum count 2 0 = count 0 + count 2 ∧ parity_sum count 2 1 = count 1 := by
  constructor <;> simp [parity_sum, Finset.sum_filter, Finset.sum_range_succ]

theorem report_pauses (s : State) : (report s).data.head? = some (Cell.d (s.current_phase / 2)) := by
  simp [report]

theorem env_of_sample (raw : Nat → Nat) (m i : Nat) (h : raw m < UINT64_MOD) (c : Counter) :
    ∃ v, get_current_value c (env_of raw m i) = .ok v ∧ v.raw_value = raw m := by
  unfold get_current_value env_of
  cases c.type with
  | Time =>
    refine ⟨_, rfl, ?_⟩
    simp only [Nat.zero_mul, Nat.zero_add]
    exact Nat.mod_eq_of_lt h
  | PerfEvent =>
    refine ⟨{ raw_value := raw m % UINT64_MOD, aux_value := 7 % UINT64_MOD }, ?_, ?_⟩
    · have h1 : ¬ ((24 : Int) % (UINT64_MOD : Int)).toNat < 24 := by decide
      simp only [h1, if_false, ne_eq, not_true_eq_false]
    · exact Nat.mod_eq_of_lt h

/-- C3: from the initial state, if in a window with `k < MAX_PHASES` notifications every
read succeeds and call number `j` reads the raw value `S j i` for counter `i`, with
`S 0 i ≤ S 1 i ≤ ... ≤ S (k + 1) i`, then the window completes with `current_phase = k`,
reports `k / 2` pauses, and every counter `i` ends with `count[p] = S (p + 1) i - S p i`
for all `p ≤ k`; for a hardware counter with deltas `+100`, `+50`, `+30` and `k = 2` the
mutator total is `130`, the STW total `50`, the grand total `180`, and one pause is
reported. -/
theorem C3_buckets_are_sample_differences (fd0 : Int) (perf_events : List (String × Int))
    (kinds : List Boundary) (env : Nat → Nat → Reading) (S : Nat → Nat → Nat)
    (hk : kinds.length < MAX_PHASES)
    (hS : ∀ m, m ≤ kinds.length + 1 → ∀ i c0,
      (setup_counters fd0 perf_events).counters[i]? = some c0 →
      ∃ v, get_current_value c0 (env m i) = .ok v ∧ v.raw_value = S m i)
    (hmono : ∀ m, m < kinds.length + 1 → ∀ i, S m i ≤ S (m + 1) i) :
    ∃ s3 rep, window (setup_counters fd0 perf_events) kinds env = .ok (s3, rep) ∧
      s3.current_phase = kinds.length ∧
      rep.data.head? = some (Cell.d (kinds.length / 2)) ∧
      s3.counters.length = (setup_counters fd0 perf_events).counters.length ∧
      ∀ i c, s3.counters[i]? = some c →
        (∃ c0, (setup_counters fd0 perf_events).counters[i]? = some c0 ∧
          c.type = c0.type ∧ c.name = c0.name) ∧
        (∀ p, p ≤ kinds.length → c.count p = S (p + 1) i - S p i) ∧
        (c.type = CounterType.PerfEvent → kinds.length = 2 →
          S 1 i = S 0 i + 100 → S 2 i = S 1 i + 50 → S 3 i = S 2 i + 30 →
          counter_get_total c s3.current_phase false true = 130 ∧
          counter_get_total c s3.current_phase false false = 50 ∧
          counter_get_total c s3.current_phase true false = 180 ∧
          rep.data.head? = some (Cell.d 1)) := by
  obtain ⟨s3, hw, hcp, _, hlen, hc⟩ := window_tracks fd0 perf_events kinds env S hk hS hmono
  refine ⟨s3, report s3, hw, hcp, ?_, hlen, ?_⟩
  · rw [report_pauses, hcp]
  · intro i c hi
    obtain ⟨_, h0, hs, hlo, _, htot⟩ := hc i c hi
    refine ⟨h0, fun p hp => hlo p (by omega), ?_⟩
    intro hty h2 d1 d2 d3
    rw [h2] at hlo htot
    have c0 : c.count 0 = S 1 i - S 0 i := hlo 0 (by omega)
    have c1 : c.count 1 = S 2 i - S 1 i := hlo 1 (by omega)
    have c2 : c.count 2 = S 3 i - S 2 i := hlo 2 (by omega)
    have htot : c.total_count = S 3 i - S 0 i := htot
    obtain ⟨e1, e2, e3⟩ := counter_get_total_eq c s3.current_phase false
    obtain ⟨p0, p1⟩ := parity_sum_two c.count
    rw [report_pauses, e1, e2, e3, hcp, h2, p0, p1, htot, c0, c1, c2]
    simp only [hty, reduceCtorEq, if_false]
    have a0 : S 1 i - S 0 i = 100 := by omega
    have a1 : S 2 i - S 1 i = 50 := by omega
    have a2 : S 3 i - S 2 i = 30 := by omega
    have a3 : S 3 i - S 0 i = 180 := by omega
    rw [a0, a1, a2, a3]
    refine ⟨by norm_num, by norm_num, by norm_num, by norm_num⟩

theorem example_raw_lt (m : Nat) : example_raw m < UINT64_MOD := by
  unfold example_raw UINT64_MOD
  rcases Nat.lt_or_ge m 4 with h | h
  · interval_cases m <;> decide
  · rw [List.getD_eq_default _ _ (by simpa using h)]
    norm_num

theorem example_raw_mono (m : Nat) (h : m < 3) : example_raw m ≤ example_raw (m + 1) := by
  interval_cases m <;> decide

/-- Witness of C3: the window with raw values `1000, 1100, 1150, 1180` on every counter
and two notifications; the task clock counter, a hardware counter, ends with the buckets
`100, 50, 30` and the totals `130`, `50` and `180`, and one pause is reported. -/
theorem C3_buckets_are_sample_differences_witness :
    ∃ s3 rep, window (setup_counters 3 []) [Boundary.start, Boundary.finish]
        (env_of example_raw) = .ok (s3, rep) ∧
      rep.data.head? = some (Cell.d 1) ∧
      ∃ c, s3.counters[1]? = some c ∧
        c.count 0 = 100 ∧ c.count 1 = 50 ∧ c.count 2 = 30 ∧
        counter_get_total c s3.current_phase false true = 130 ∧
        counter_get_total c s3.current_phase false false = 50 ∧
        counter_get_total c s3.current_phase true false = 180 := by
  obtain ⟨s3, rep, hw, _, hp, hlen, hc⟩ :=
    C3_buckets_are_sample_differences 3 [] [Boundary.start, Boundary.finish]
      (env_of example_raw) (fun m _ => example_raw m) (by decide)
      (fun m _ i c0 _ => env_of_sample example_raw m i (example_raw_lt m) c0)
      (fun m hm _ => example_raw_mono m hm)
  have h1 : (1 : Nat) < s3.counters.length := by rw [hlen]; decide
  obtain ⟨⟨c0, h0, hty, _⟩, hcount, hex⟩ := hc 1 _ (List.getElem?_eq_getElem h1)
  have hc0 : c0.type = CounterType.PerfEvent := by
    simp only [setup_counters, List.map_nil, List.getElem?_cons_succ, List.getElem?_cons_zero,
      Option.some.injEq] at h0
    rw [← h0]; rfl
  obtain ⟨t1, t2, t3, _⟩ := hex (hty.trans hc0) rfl (by decide) (by decide) (by decide)
  exact ⟨s3, rep, hw, hp, _, List.getElem?_eq_getElem h1, hcount 0 (by decide),
    hcount 1 (by decide), hcount 2 (by decide), t1, t2, t3⟩

/-! ## Fatal rolls -/

theorem counter_stop_decreasing {c : Counter} {r : Reading} {cur : CounterValue}
    (hrun : c.running = true) (hcur : get_current_value c r = .ok cur)
    (hlt : cur.raw_value < c.start_value.raw_value) (cp : Nat) (c1 : Counter) :
    counter_stop c cp r ≠ .ok c1 := by
  intro h
  obtain ⟨_, c2, h2, _⟩ := counter_stop_ok h
  rcases counter_phase_change_ok h2 with ⟨hf, _⟩ | ⟨_, _, cur1, hg, hle, _⟩
  · rw [hrun] at hf; exact absurd hf (by simp)
  · rw [hcur] at hg
    simp only [Except.ok.injEq] at hg
    subst hg
    omega

/-- C4: when the sample of a running counter is below its base, a roll into a phase below
`MAX_PHASES` ends the process after the diagnostic line, with the counter (its
`last_delta`, `total_count`, buckets and `start_value` included) as it was; and a
`harness_end` in which some counter meets such a sample ends the process with that counter
as it was and returns no report, neither summary nor record file. -/
theorem C4_decreasing_sample_is_fatal (c : Counter) (r : Reading) (cur : CounterValue)
    (hrun : c.running = true) (hcur : get_current_value c r = .ok cur)
    (hlt : cur.raw_value < c.start_value.raw_value) :
    (∀ old_phase, old_phase < MAX_PHASES →
      counter_phase_change c old_phase r =
        .error (Fatal.overflow c.name cur.raw_value c.start_value.raw_value, c)) ∧
    (∀ (s : State) (env : Nat → Reading) (i : Nat),
      s.counters[i]? = some c → env i = r →
      ∃ e s1, harness_end s env = .error (e, s1) ∧ s1.counters[i]? = some c) := by
  refine ⟨?_, ?_⟩
  · intro old_phase hp
    unfold counter_phase_change
    simp only [hrun, if_true, hp, not_true_eq_false, if_false, hcur]
    rw [if_pos hlt]
  · intro s env i hi hr
    subst hr
    unfold harness_end
    cases hl : for_each_counter (fun i c => counter_stop c s.current_phase (env i)) 0
        s.counters with
    | ok cs =>
      obtain ⟨c1, _, hf⟩ := for_each_counter_get_fwd hl hi
      rw [Nat.zero_add] at hf
      exact absurd hf (counter_stop_decreasing hrun hcur hlt _ _)
    | error e =>
      obtain ⟨e, cs⟩ := e
      refine ⟨e, _, rfl, ?_⟩
      apply for_each_counter_abort_get _ _ _ _ hl i c hi
      · intro e1 c1 h1
        exact counter_stop_abort h1
      · intro c1
        rw [Nat.zero_add]
        exact counter_stop_decreasing hrun hcur hlt _ _

/-- Witness of C4: a running hardware counter with base `500` that reads `400`. -/
theorem C4_decreasing_sample_is_fatal_witness :
    (example_counter.running = true ∧
      get_current_value example_counter (env_of (fun _ => 400) 0 0) =
        .ok { raw_value := 400, aux_value := 7 } ∧
      (400 : Nat) < example_counter.start_value.raw_value) ∧
    counter_phase_change example_counter 0 (env_of (fun _ => 400) 0 0) =
      .error (Fatal.overflow "PERF_COUNT_HW_INSTRUCTIONS" 400 500, example_counter) :=
  ⟨⟨rfl, rfl, by decide⟩,
    (C4_decreasing_sample_is_fatal example_counter (env_of (fun _ => 400) 0 0)
      { raw_value := 400, aux_value := 7 } rfl rfl (by decide)).1 0 (by decide)⟩

/-! ## Entry points outside their expected use -/

theorem harness_begin_total {s : State} (env : Nat → Reading)
    (hread : ∀ (i : Nat) (c : Counter), s.counters[i]? = some c →
      ∃ v, get_current_value c (env i) = .ok v) :
    ∃ s1, harness_begin s env = .ok s1 ∧
      s1.gathering_statistics = true ∧ s1.current_phase = s.current_phase ∧
      s1.counters.length = s.counters.length ∧
      ∀ (i : Nat) (c1 : Counter), s1.counters[i]? = some c1 →
        ∃ c v, s.counters[i]? = some c ∧ get_current_value c (env i) = .ok v ∧
          c1 = { c with running := true, start_value := v } := by
  obtain ⟨cs, hl⟩ := for_each_counter_complete (f := fun i c => counter_start c (env i))
    s.counters 0 (by
      intro k c hk
      obtain ⟨v, hv⟩ := hread k c hk
      exact ⟨_, by rw [Nat.zero_add]; exact counter_start_of_sample hv⟩)
  refine ⟨{ s with gathering_statistics := true, counters := cs }, ?_, rfl, rfl,
    for_each_counter_length _ _ _ hl, ?_⟩
  · unfold harness_begin
    simp only [hl]
  · intro i c1 hi
    obtain ⟨c, hc, hf⟩ := for_each_counter_get _ _ _ hl i c1 hi
    rw [Nat.zero_add] at hf
    obtain ⟨v, hv, hc1⟩ := counter_start_ok hf
    exact ⟨c, v, hc, hv, hc1⟩

/-- C5 (amended): `harness_begin` does not look at `gathering_statistics`.  Called while
the engine is gathering, with reads that succeed, it returns normally: gathering stays
true, `current_phase` is unchanged, and every counter is the old counter with `running`
true and `start_value` replaced by the fresh sample, its `last_delta`, `total_count` and
buckets untouched. -/
theorem C5_harness_begin_while_gathering_returns (s : State) (env : Nat → Reading)
    (hg : s.gathering_statistics = true)
    (hread : ∀ (i : Nat) (c : Counter), s.counters[i]? = some c →
      ∃ v, get_current_value c (env i) = .ok v) :
    ∃ s1, harness_begin s env = .ok s1 ∧
      s1.gathering_statistics = s.gathering_statistics ∧
      s1.current_phase = s.current_phase ∧
      s1.counters.length = s.counters.length ∧
      ∀ (i : Nat) (c1 : Counter), s1.counters[i]? = some c1 →
        ∃ c v, s.counters[i]? = some c ∧ get_current_value c (env i) = .ok v ∧
          c1 = { c with running := true, start_value := v } := by
  obtain ⟨s1, h1, h2, h3, h4, h5⟩ := harness_begin_total env hread
  exact ⟨s1, h1, h2.trans hg.symm, h3, h4, h5⟩

/-- C5 fails as stated: a second `harness_begin` while the engine is gathering returns
normally; every counter is running with the new sample `1100` as its base, and the `100`
counted since the first `harness_begin` is in no bucket and in no total. -/
theorem C5_counterexample :
    ∃ s1 s2, harness_begin (setup_counters 3 []) (env_of example_raw 0) = .ok s1 ∧
      s1.gathering_statistics = true ∧
      s1.counters.map (fun c => (c.running, c.start_value.raw_value)) =
        [(true, 1000), (true, 1000)] ∧
      harness_begin s1 (env_of example_raw 1) = .ok s2 ∧
      s2.gathering_statistics = true ∧
      s2.counters.map
          (fun c => (c.running, c.start_value.raw_value, c.total_count, c.count 0)) =
        [(true, 1100, 0, 0), (true, 1100, 0, 0)] :=
  ⟨_, _, rfl, rfl, rfl, rfl, rfl, rfl⟩

/-- Witness of C5 (amended): the second `harness_begin` after one on the initial state. -/
theorem C5_harness_begin_while_gathering_returns_witness :
    ∃ s s1, harness_begin (setup_counters 3 []) (env_of example_raw 0) = .ok s ∧
      s.gathering_statistics = true ∧
      harness_begin s (env_of example_raw 1) = .ok s1 ∧
      s1.current_phase = s.current_phase := by
  obtain ⟨s, hs⟩ : ∃ s, harness_begin (setup_counters 3 []) (env_of example_raw 0) = .ok s :=
    ⟨_, rfl⟩
  have hg : s.gathering_statistics = true := by
    obtain ⟨cs, _, rfl⟩ := harness_begin_ok hs
    rfl
  obtain ⟨s1, h1, _, h3, _⟩ := C5_harness_begin_while_gathering_returns s
    (env_of example_raw 1) hg
    (fun i c _ => (env_of_sample example_raw 1 i (example_raw_lt 1) c).imp (fun _ hv => hv.1))
  exact ⟨s, s1, hs, hg, h1, h3⟩

/-- C6: while `gathering_statistics` is false, `GarbageCollectionStart` and
`GarbageCollectionFinish` return with the whole state as it was, whatever the
environment would have delivered. -/
theorem C6_boundary_outside_window_is_ignored (s : State) (env : Nat → Reading)
    (h : s.gathering_statistics = false) :
    GarbageCollectionStart s env = .ok s ∧ GarbageCollectionFinish s env = .ok s := by
  simp [GarbageCollectionStart, GarbageCollectionFinish, phase_boundary, h]

/-- Witness of C6: the initial state is not gathering. -/
theorem C6_boundary_outside_window_is_ignored_witness :
    example_state.gathering_statistics = false ∧
    GarbageCollectionStart example_state (env_of example_raw 0) = .ok example_state ∧
    GarbageCollectionFinish example_state (env_of example_raw 0) = .ok example_state :=
  ⟨rfl, C6_boundary_outside_window_is_ignored example_state (env_of example_raw 0) rfl⟩

/-! ## The phase index -/

theorem harness_begin_phase {s s1 : State} {env : Nat → Reading}
    (h : harness_begin s env = .ok s1) :
    s1.current_phase = s.current_phase ∧ s1.gathering_statistics = true := by
  obtain ⟨cs, _, rfl⟩ := harness_begin_ok h
  exact ⟨rfl, rfl⟩

theorem harness_end_phase {s s1 : State} {rep : Report} {env : Nat → Reading}
    (h : harness_end s env = .ok (s1, rep)) :
    s1.current_phase = s.current_phase ∧ s1.gathering_statistics = false := by
  obtain ⟨cs, _, rfl, _⟩ := harness_end_ok h
  exact ⟨rfl, rfl⟩

theorem phase_boundary_phase {s s1 : State} {env : Nat → Reading}
    (h : phase_boundary s env = .ok s1) :
    s1.gathering_statistics = s.gathering_statistics ∧
    s1.current_phase = s.current_phase + (if s.gathering_statistics then 1 else 0) := by
  rcases phase_boundary_ok h with ⟨hg, rfl⟩ | ⟨hg, _, cs, _, rfl⟩
  · simp [hg]
  · simp [hg]

theorem call_exec_phase {s s1 : State} {call : Call} (h : call.exec s = .ok s1) :
    s.current_phase ≤ s1.current_phase := by
  cases call with
  | harness_begin env => exact Nat.le_of_eq (harness_begin_phase h).1.symm
  | GarbageCollectionStart env =>
    have := (phase_boundary_phase h).2
    omega
  | GarbageCollectionFinish env =>
    have := (phase_boundary_phase h).2
    omega
  | harness_end env =>
    simp only [Call.exec] at h
    cases he : harness_end s env with
    | error e => rw [he] at h; exact absurd h (by simp)
    | ok p =>
      obtain ⟨s2, rep⟩ := p
      rw [he] at h
      simp only [Except.ok.injEq] at h
      subst h
      exact Nat.le_of_eq (harness_end_phase he).1.symm

theorem run_calls_phase :
    ∀ (calls : List Call) (s s1 : State), run_calls s calls = .ok s1 →
      s.current_phase ≤ s1.current_phase := by
  intro calls
  induction calls with
  | nil =>
    intro s s1 h
    simp only [run_calls, Except.ok.injEq] at h
    subst h; exact Nat.le_refl _
  | cons call calls ih =>
    intro s s1 h
    simp only [run_calls] at h
    cases he : call.exec s with
    | error e => rw [he] at h; exact absurd h (by simp)
    | ok s2 =>
      rw [he] at h
      exact Nat.le_trans (call_exec_phase he) (ih s2 s1 h)

/-- C7: a `GarbageCollectionStart` or `GarbageCollectionFinish` that arrives while
gathering and returns leaves `current_phase` one higher; `harness_begin` and `harness_end`
leave it as it is; and over any sequence of calls `current_phase` never gets smaller. -/
theorem C7_current_phase_only_advances (s : State) (env : Nat → Reading) :
    (s.gathering_statistics = true →
      (∀ s1, GarbageCollectionStart s env = .ok s1 →
        s1.current_phase = s.current_phase + 1) ∧
      (∀ s1, GarbageCollectionFinish s env = .ok s1 →
        s1.current_phase = s.current_phase + 1)) ∧
    (∀ s1, harness_begin s env = .ok s1 → s1.current_phase = s.current_phase) ∧
    (∀ s1 rep, harness_end s env = .ok (s1, rep) → s1.current_phase = s.current_phase) ∧
    (∀ (calls : List Call) (s1 : State), run_calls s calls = .ok s1 →
      s.current_phase ≤ s1.current_phase) := by
  refine ⟨?_, fun s1 h => (harness_begin_phase h).1, fun s1 rep h => (harness_end_phase h).1,
    fun calls s1 h => run_calls_phase calls s s1 h⟩
  intro hg
  constructor
  · intro s1 h
    have := (phase_boundary_phase (show phase_boundary s env = .ok s1 from h)).2
    simpa [hg] using this
  · intro s1 h
    have := (phase_boundary_phase (show phase_boundary s env = .ok s1 from h)).2
    simpa [hg] using this

/-- Witness of C7: the first notification of a window moves the phase index from `0` to
`1`. -/
theorem C7_current_phase_only_advances_witness :
    ∃ s s1, harness_begin example_state (env_of example_raw 0) = .ok s ∧
      s.gathering_statistics = true ∧
      GarbageCollectionStart s (env_of example_raw 1) = .ok s1 ∧
      s1.current_phase = s.current_phase + 1 :=
  ⟨_, _, rfl, rfl, rfl,
    ((C7_current_phase_only_advances _ (env_of example_raw 1)).1 rfl).1 _ rfl⟩

theorem deliver_phase (env : Nat → Nat → Reading) :
    ∀ (kinds : List Boundary) (s s1 : State) (j : Nat),
      s.gathering_statistics = true → deliver env s j kinds = .ok s1 →
      s1.gathering_statistics = true ∧ s1.current_phase = s.current_phase + kinds.length := by
  intro kinds
  induction kinds with
  | nil =>
    intro s s1 j hg h
    rw [deliver_nil] at h
    simp only [Except.ok.injEq] at h
    subst h
    exact ⟨hg, rfl⟩
  | cons b bs ih =>
    intro s s1 j hg h
    obtain ⟨s2, h2, h3⟩ := deliver_cons_ok h
    obtain ⟨g2, p2⟩ := phase_boundary_phase h2
    rw [hg] at g2 p2
    obtain ⟨g3, p3⟩ := ih s2 s1 (j + 1) g2 h3
    refine ⟨g3, ?_⟩
    simp only [if_true] at p2
    simp only [List.length_cons]
    omega

theorem window_phase {fd0 : Int} {perf_events : List (String × Int)} {kinds : List Boundary}
    {env : Nat → Nat → Reading} {s3 : State} {rep : Report}
    (h : window (setup_counters fd0 perf_events) kinds env = .ok (s3, rep)) :
    s3.current_phase = kinds.length ∧ rep = report s3 := by
  obtain ⟨s2, h2, he⟩ := window_ok h
  obtain ⟨s1, hb, hd⟩ := window_state_ok h2
  obtain ⟨p1, g1⟩ := harness_begin_phase hb
  obtain ⟨_, p2⟩ := deliver_phase env kinds s1 s2 1 g1 hd
  obtain ⟨p3, _⟩ := harness_end_phase he
  obtain ⟨_, _, _, hr⟩ := harness_end_ok he
  refine ⟨?_, hr⟩
  rw [p3, p2, p1]
  simp [setup_counters]

theorem alternates_pairs :
    ∀ kinds : List Boundary, alternates kinds = true → kinds.length / 2 = complete_pairs kinds
  | [], _ => rfl
  | [Boundary.start], _ => rfl
  | [Boundary.finish], h => by simp [alternates] at h
  | Boundary.finish :: _ :: _, h => by simp [alternates] at h
  | Boundary.start :: Boundary.start :: _, h => by simp [alternates] at h
  | Boundary.start :: Boundary.finish :: rest, h => by
    simp only [alternates] at h
    have ih := alternates_pairs rest h
    simp only [List.length_cons, complete_pairs]
    omega

/-- C8 (amended): the first field of the data line that a completed `harness_end` prints,
under the header `pauses`, is `current_phase / 2`; after a window from the initial state
with `n` notifications it is `n / 2`; and when the notifications alternate between
`GarbageCollectionStart` and `GarbageCollectionFinish`, beginning with a start, `n / 2` is
the number of start/finish pairs among them. -/
theorem C8_pauses_is_half_the_phase_index :
    (∀ (s : State) (env : Nat → Reading) (s1 : State) (rep : Report),
      harness_end s env = .ok (s1, rep) →
      rep.header.head? = some "pauses" ∧
      rep.data.head? = some (Cell.d (s.current_phase / 2))) ∧
    (∀ (fd0 : Int) (perf_events : List (String × Int)) (kinds : List Boundary)
      (env : Nat → Nat → Reading) (s3 : State) (rep : Report),
      window (setup_counters fd0 perf_events) kinds env = .ok (s3, rep) →
      s3.current_phase = kinds.length ∧
      rep.data.head? = some (Cell.d (kinds.length / 2))) ∧
    (∀ kinds : List Boundary, alternates kinds = true →
      kinds.length / 2 = complete_pairs kinds) := by
  refine ⟨?_, ?_, alternates_pairs⟩
  · intro s env s1 rep h
    obtain ⟨cs, _, rfl, rfl⟩ := harness_end_ok h
    exact ⟨by simp [report], by simp [report]⟩
  · intro fd0 perf_events kinds env s3 rep h
    obtain ⟨hp, rfl⟩ := window_phase h
    exact ⟨hp, by rw [report_pauses, hp]⟩

/-- C8 fails as stated: a window that begins inside a collection and ends inside the next
one gets the notifications finish, start; it reports `2 / 2 = 1` pause although no
collection both started and finished in it. -/
theorem C8_counterexample :
    ∃ s3 rep, window (setup_counters 3 []) [Boundary.finish, Boundary.start]
        (env_of example_raw) = .ok (s3, rep) ∧
      s3.current_phase = 2 ∧ rep.data.head? = some (Cell.d 1) ∧
      complete_pairs [Boundary.finish, Boundary.start] = 0 :=
  ⟨_, _, rfl, rfl, rfl, rfl⟩

/-- Witness of C8 (amended): a window with two notifications, one collection, reports one
pause. -/
theorem C8_pauses_is_half_the_phase_index_witness :
    ∃ s3 rep, window (setup_counters 3 []) [Boundary.start, Boundary.finish]
        (env_of example_raw) = .ok (s3, rep) ∧
      s3.current_phase = 2 ∧ rep.data.head? = some (Cell.d 1) ∧
      complete_pairs [Boundary.start, Boundary.finish] = 1 :=
  ⟨_, _, rfl,
    (C8_pauses_is_half_the_phase_index.2.1 3 []
      [Boundary.start, Boundary.finish] (env_of example_raw) _ _ rfl).1,
    (C8_pauses_is_half_the_phase_index.2.1 3 []
      [Boundary.start, Boundary.finish] (env_of example_raw) _ _ rfl).2,
    (C8_pauses_is_half_the_phase_index.2.2 [Boundary.start, Boundary.finish] rfl).symm⟩

/-! ## The record file -/

theorem csv_rows_from_eq (c : Counter) :
    ∀ (n phase : Nat),
      csv_rows_from c n phase = (List.range n).map (fun k => csv_row c (phase + k)) := by
  intro n
  induction n with
  | zero => intro phase; rfl
  | succ n ih =>
    intro phase
    rw [csv_rows_from, ih (phase + 1), List.range_succ_eq_map]
    simp only [List.map_cons, List.map_map, Nat.add_zero]
    refine congrArg₂ _ rfl ?_
    apply List.map_congr_left
    intro k _
    simp only [Function.comp]
    congr 1
    omega

theorem length_flatMap_const {α β : Type} (f : α → List β) (n : Nat) :
    ∀ l : List α, (∀ a ∈ l, (f a).length = n) → (l.flatMap f).length = n * l.length := by
  intro l
  induction l with
  | nil => intro _; simp
  | cons a l ih =>
    intro h
    simp only [List.flatMap_cons, List.length_append, List.length_cons]
    rw [h a (List.mem_cons_self _ _), ih (fun b hb => h b (List.mem_cons_of_mem _ hb))]
    ring

/-- C9: the record file of a completed `harness_end` has `(current_phase + 1) *
num_counter` lines after its header line: for each counter in registry order (the names
are those of the registry before the call), one line for every phase
`0 .. current_phase` in increasing order, with the counter's name, its bucket of that
phase, and the mode `"other"` for an even and `"stw"` for an odd phase. -/
theorem C9_record_file_rows (s : State) (env : Nat → Reading) (s1 : State) (rep : Report)
    (h : harness_end s env = .ok (s1, rep)) :
    rep.csv.length = (s.current_phase + 1) * s.num_counter ∧
    s1.current_phase = s.current_phase ∧
    s1.counters.map (fun c => c.name) = s.counters.map (fun c => c.name) ∧
    rep.csv = s1.counters.flatMap (fun c =>
      (List.range (s.current_phase + 1)).map (fun phase =>
        ({ mode := if phase % 2 = 0 then "other" else "stw",
           phase := phase, counter := c.name, value := c.count phase } : Row))) := by
  obtain ⟨cs, hl, rfl, rfl⟩ := harness_end_ok h
  have hlen := for_each_counter_length _ _ _ hl
  have hcsv : (report { s with counters := cs, gathering_statistics := false }).csv =
      cs.flatMap (fun c => (List.range (s.current_phase + 1)).map (fun phase => csv_row c phase)) := by
    simp only [report]
    congr 1
    funext c
    rw [csv_rows_from_eq]
    simp
  refine ⟨?_, rfl, ?_, ?_⟩
  · rw [hcsv, length_flatMap_const _ (s.current_phase + 1)]
    · simp only [State.num_counter]
      rw [hlen]
    · intro c _
      simp
  · exact for_each_counter_map_eq (fun c => c.name)
      (fun k c c1 hk => (counter_stop_name hk).1) _ _ _ hl
  · exact hcsv

/-- Witness of C9: after a window with two notifications and the raw values
`1000, 1100, 1150, 1180`, the record file has the six lines of the two counters. -/
theorem C9_record_file_rows_witness :
    ∃ s2 s3 rep,
      window_state (setup_counters 3 []) [Boundary.start, Boundary.finish]
        (env_of example_raw) = .ok s2 ∧
      harness_end s2 (env_of example_raw 3) = .ok (s3, rep) ∧
      rep.csv.length = (s2.current_phase + 1) * s2.num_counter ∧
      rep.csv.map (fun r => (r.mode, r.phase, r.counter, r.value)) =
        [("other", 0, "time", 100), ("stw", 1, "time", 50), ("other", 2, "time", 30),
         ("other", 0, "PERF_COUNT_SW_TASK_CLOCK", 100),
         ("stw", 1, "PERF_COUNT_SW_TASK_CLOCK", 50),
         ("other", 2, "PERF_COUNT_SW_TASK_CLOCK", 30)] := by
  refine ⟨_, _, _, rfl, rfl, ?_, ?_⟩
  · exact (C9_record_file_rows _ (env_of example_raw 3) _ _ (by rfl)).1
  · decide

/-! ## A window without notifications -/

/-- When the loop aborts, the reason is that of the loop body on one of the counters. -/
theorem for_each_counter_abort_reason {f : Nat → Counter → Except (Fatal × Counter) Counter} :
    ∀ (cs : List Counter) (i : Nat) (e : Fatal) (cs1 : List Counter),
      for_each_counter f i cs = .error (e, cs1) →
      ∃ (k : Nat) (c c1 : Counter), cs[k]? = some c ∧ f (i + k) c = .error (e, c1) := by
  intro cs
  induction cs with
  | nil =>
    intro i e cs1 h
    simp [for_each_counter] at h
  | cons c cs ih =>
    intro i e cs1 h
    simp only [for_each_counter] at h
    cases hc : f i c with
    | error e1 =>
      obtain ⟨e1, c1⟩ := e1
      rw [hc] at h
      simp only [Except.error.injEq, Prod.mk.injEq] at h
      obtain ⟨he, _⟩ := h
      subst he
      exact ⟨0, c, c1, by simp, by simpa using hc⟩
    | ok c1 =>
      rw [hc] at h
      cases h2 : for_each_counter f (i + 1) cs with
      | ok cs2 => rw [h2] at h; exact absurd h (by simp)
      | error e2 =>
        obtain ⟨e2, cs2⟩ := e2
        rw [h2] at h
        simp only [Except.error.injEq, Prod.mk.injEq] at h
        obtain ⟨he, _⟩ := h
        subst he
        obtain ⟨k, c0, c2, hk, hf⟩ := ih (i + 1) e2 cs2 h2
        refine ⟨k + 1, c0, c2, by simpa using hk, ?_⟩
        have e3 : i + (k + 1) = i + 1 + k := by omega
        rw [e3]; exact hf

theorem counter_phase_change_capacity {c : Counter} (hr : c.running = true) {p : Nat}
    (hp : MAX_PHASES ≤ p) (r : Reading) :
    counter_phase_change c p r = .error (Fatal.phase_capacity, c) := by
  unfold counter_phase_change
  simp only [hr, if_true]
  rw [if_pos (Nat.not_lt.mpr hp)]

/-- Past the capacity a roll can only end with the capacity assertion. -/
theorem counter_phase_change_capacity_reason {c c1 : Counter} {p : Nat} {r : Reading}
    {e : Fatal} (hp : MAX_PHASES ≤ p) (h : counter_phase_change c p r = .error (e, c1)) :
    e = Fatal.phase_capacity := by
  cases hr : c.running with
  | false =>
    rw [counter_phase_change_not_running hr] at h
    exact absurd h (by simp)
  | true =>
    rw [counter_phase_change_capacity hr hp] at h
    simp only [Except.error.injEq, Prod.mk.injEq] at h
    exact h.1.symm

theorem phase_boundary_abort {s : State} {env : Nat → Reading} {e : Fatal}
    {cs : List Counter} (hg : s.gathering_statistics = true)
    (hl : for_each_counter (fun i c => counter_phase_change c s.current_phase (env i)) 0
      s.counters = .error (e, cs)) :
    phase_boundary s env = .error (e, { s with counters := cs }) := by
  unfold phase_boundary
  rw [if_pos hg, hl]

/-- C11: `MAX_PHASES` is `16384`.  A roll of a running counter into a phase index at or
past `MAX_PHASES` ends the process at the capacity assertion with the counter, all its
buckets and its total included, as it was; a roll of a running counter that returns has a
phase index below `MAX_PHASES` and changes no bucket but that one; and a notification
that arrives while gathering with `current_phase` at or past `MAX_PHASES` and a running
counter in the registry ends the process at the capacity assertion, with that counter as
it was. -/
theorem C11_phase_capacity_is_checked :
    MAX_PHASES = 16384 ∧
    (∀ (c : Counter) (p : Nat) (r : Reading), c.running = true → MAX_PHASES ≤ p →
      counter_phase_change c p r = .error (Fatal.phase_capacity, c)) ∧
    (∀ (c c1 : Counter) (p : Nat) (r : Reading), c.running = true →
      counter_phase_change c p r = .ok c1 →
      p < MAX_PHASES ∧ ∀ q, q ≠ p → c1.count q = c.count q) ∧
    (∀ (s : State) (env : Nat → Reading) (k : Nat) (c : Counter),
      s.gathering_statistics = true → MAX_PHASES ≤ s.current_phase →
      s.counters[k]? = some c → c.running = true →
      ∃ s1, GarbageCollectionStart s env = .error (Fatal.phase_capacity, s1) ∧
        GarbageCollectionFinish s env = .error (Fatal.phase_capacity, s1) ∧
        s1.counters[k]? = some c ∧ s1.current_phase = s.current_phase) := by
  refine ⟨by decide, fun c p r hr hp => counter_phase_change_capacity hr hp r, ?_, ?_⟩
  · intro c c1 p r hr h
    rcases counter_phase_change_ok h with ⟨hf, _⟩ | ⟨_, hp, cur, _, _, rfl⟩
    · rw [hr] at hf; exact absurd hf (by simp)
    · refine ⟨hp, ?_⟩
      intro q hq
      simp [Function.update, hq]
  · intro s env k c hg hp hk hr
    cases hl : for_each_counter (fun i c => counter_phase_change c s.current_phase (env i)) 0
        s.counters with
    | ok cs =>
      obtain ⟨c1, _, hf⟩ := for_each_counter_get_fwd hl hk
      rw [counter_phase_change_capacity hr hp] at hf
      exact absurd hf (by simp)
    | error e =>
      obtain ⟨e, cs⟩ := e
      obtain ⟨j, c0, c2, _, hf⟩ := for_each_counter_abort_reason _ _ _ _ hl
      have he := counter_phase_change_capacity_reason hp hf
      subst he
      have hab := phase_boundary_abort hg hl
      refine ⟨{ s with counters := cs }, hab, hab, ?_, rfl⟩
      apply for_each_counter_abort_get _ _ _ _ hl k c hk
      · intro e1 c1 h1
        exact counter_phase_change_abort h1
      · intro c1 h1
        rw [counter_phase_change_capacity hr hp] at h1
        exact absurd h1 (by simp)

/-- Witness of C11: a running hardware counter rolled into phase `16384`. -/
theorem C11_phase_capacity_is_checked_witness :
    example_counter.running = true ∧ MAX_PHASES ≤ 16384 ∧
    counter_phase_change example_counter 16384 (env_of (fun _ => 600) 0 0) =
      .error (Fatal.phase_capacity, example_counter) :=
  ⟨rfl, by decide,
    C11_phase_capacity_is_checked.2.1 example_counter 16384 (env_of (fun _ => 600) 0 0) rfl
      (by decide)⟩

/-! ## Frame of the counter operations -/

/-- C12: a `harness_begin` that returns has set `gathering_statistics`, has left
`current_phase` and the number of counters as they were, and has made of every counter, in
registry order, the old counter with `running` true and `start_value` the sample just
taken for it: its `last_delta`, `total_count` and every bucket are unchanged.  It returns
whenever every read succeeds, whatever `current_phase` and `gathering_statistics` were. -/
theorem C12_harness_begin_frame (s : State) (env : Nat → Reading) :
    (∀ s1, harness_begin s env = .ok s1 →
      s1.gathering_statistics = true ∧ s1.current_phase = s.current_phase ∧
      s1.counters.length = s.counters.length ∧
      ∀ (i : Nat) (c1 : Counter), s1.counters[i]? = some c1 →
        ∃ c v, s.counters[i]? = some c ∧ get_current_value c (env i) = .ok v ∧
          c1 = { c with running := true, start_value := v } ∧
          c1.total_count = c.total_count ∧ c1.count = c.count) ∧
    ((∀ (i : Nat) (c : Counter), s.counters[i]? = some c →
        ∃ v, get_current_value c (env i) = .ok v) →
      ∃ s1, harness_begin s env = .ok s1) := by
  constructor
  · intro s1 h
    obtain ⟨cs, hl, rfl⟩ := harness_begin_ok h
    refine ⟨rfl, rfl, for_each_counter_length _ _ _ hl, ?_⟩
    intro i c1 hi
    obtain ⟨c, hc, hf⟩ := for_each_counter_get _ _ _ hl i c1 hi
    rw [Nat.zero_add] at hf
    obtain ⟨v, hv, hc1⟩ := counter_start_ok hf
    subst hc1
    exact ⟨c, v, hc, hv, rfl, rfl, rfl⟩
  · intro hread
    obtain ⟨s1, h1, _⟩ := harness_begin_total env hread
    exact ⟨s1, h1⟩

/-- Witness of C12: `harness_begin` in the initial state, every read giving `1000`. -/
theorem C12_harness_begin_frame_witness :
    ∃ s1, harness_begin (setup_counters 3 []) (env_of example_raw 0) = .ok s1 ∧
      s1.gathering_statistics = true ∧ s1.current_phase = 0 ∧
      s1.counters.map (fun c => (c.running, c.start_value.raw_value, c.total_count)) =
        [(true, 1000, 0), (true, 1000, 0)] := by
  obtain ⟨s1, hs⟩ : ∃ s1, harness_begin (setup_counters 3 []) (env_of example_raw 0) = .ok s1 :=
    ⟨_, rfl⟩
  obtain ⟨hg, hp, _, _⟩ :=
    (C12_harness_begin_frame (setup_counters 3 []) (env_of example_raw 0)).1 s1 hs
  refine ⟨s1, hs, hg, hp, ?_⟩
  have h2 : harness_begin (setup_counters 3 []) (env_of example_raw 0) = .ok _ := rfl
  rw [hs] at h2
  simp only [Except.ok.injEq] at h2
  rw [h2]
  rfl

/-! ## The tabulated summary -/

theorem header_fields_eq (c : Counter) :
    header_fields c =
      if is_cpu_cycles c then [c.name ++ ".other", c.name ++ ".stw", "freq.other", "freq.stw"]
      else [c.name ++ ".other", c.name ++ ".stw"] := by
  unfold header_fields
  cases is_cpu_cycles c <;> simp

theorem data_fields_length (s : State) (c : Counter) :
    (data_fields s c).length = (header_fields c).length := by
  unfold data_fields header_fields
  cases is_cpu_cycles c <;> simp

theorem header_fields_congr {c c1 : Counter} (hn : c1.name = c.name) (ht : c1.type = c.type) :
    header_fields c1 = header_fields c ∧ is_cpu_cycles c1 = is_cpu_cycles c := by
  unfold header_fields is_cpu_cycles
  rw [hn, ht]
  exact ⟨rfl, rfl⟩

theorem length_flatMap_header :
    ∀ cs : List Counter,
      (cs.flatMap header_fields).length = 2 * cs.length + 2 * cs.countP is_cpu_cycles := by
  intro cs
  induction cs with
  | nil => simp
  | cons c cs ih =>
    simp only [List.flatMap_cons, List.length_append, List.length_cons, ih, List.countP_cons]
    rw [header_fields_eq]
    cases is_cpu_cycles c <;> simp <;> omega

theorem length_flatMap_data (s : State) :
    ∀ cs : List Counter,
      (cs.flatMap (data_fields s)).length = (cs.flatMap header_fields).length := by
  intro cs
  induction cs with
  | nil => simp
  | cons c cs ih =>
    simp only [List.flatMap_cons, List.length_append, ih, data_fields_length]

/-- C13: after a `harness_end` that returns, the header line and the data line of the
summary have the same number of fields, `2 + 2 * num_counter + 2 * n` with `n` the number
of `PerfEvent` counters whose name begins with `PERF_COUNT_HW_CPU_CYCLES`.  The header is
`pauses`, `time`, then for each counter in registry order `<name>.other`, `<name>.stw`,
followed by `freq.other`, `freq.stw` only for such a counter; the data line is
`current_phase / 2`, the merged total of the time counter, then for each counter its
mutator total, its STW total, and only for such a counter the two quotients by the
totals of the task clock counter. -/
theorem C13_summary_fields (s : State) (env : Nat → Reading) (s1 : State) (rep : Report)
    (h : harness_end s env = .ok (s1, rep)) :
    rep.header.length = 2 + 2 * s.num_counter + 2 * s.counters.countP is_cpu_cycles ∧
    rep.data.length = rep.header.length ∧
    rep.header = "pauses" :: "time" :: s.counters.flatMap (fun c =>
      if is_cpu_cycles c then [c.name ++ ".other", c.name ++ ".stw", "freq.other", "freq.stw"]
      else [c.name ++ ".other", c.name ++ ".stw"]) ∧
    rep.data = Cell.d (s.current_phase / 2) ::
      Cell.f0 (counter_get_total (s1.counters.getD s.time_counter zero_counter)
        s.current_phase true false) ::
      s1.counters.flatMap (fun c =>
        if is_cpu_cycles c then
          [Cell.f0 (counter_get_total c s.current_phase false true),
           Cell.f0 (counter_get_total c s.current_phase false false),
           Cell.f2 (counter_get_total c s.current_phase false true /
             counter_get_total (s1.counters.getD s.task_clock_counter zero_counter)
               s.current_phase false true),
           Cell.f2 (counter_get_total c s.current_phase false false /
             counter_get_total (s1.counters.getD s.task_clock_counter zero_counter)
               s.current_phase false false)]
        else
          [Cell.f0 (counter_get_total c s.current_phase false true),
           Cell.f0 (counter_get_total c s.current_phase false false)]) ∧
    s1.counters.map is_cpu_cycles = s.counters.map is_cpu_cycles ∧
    (∀ c : Counter, is_cpu_cycles c = true ↔
      c.type = CounterType.PerfEvent ∧
        c.name.toList.take 24 = "PERF_COUNT_HW_CPU_CYCLES".toList) := by
  obtain ⟨cs, hl, rfl, rfl⟩ := harness_end_ok h
  have hhead : cs.flatMap header_fields = s.counters.flatMap header_fields := by
    have hm := for_each_counter_map_eq header_fields
      (fun k c c1 hk => (header_fields_congr (counter_stop_name hk).1
        (counter_stop_name hk).2).1) _ _ _ hl
    rw [List.flatMap, List.flatMap, hm]
  have hcyc : cs.map is_cpu_cycles = s.counters.map is_cpu_cycles :=
    for_each_counter_map_eq is_cpu_cycles
      (fun k c c1 hk => (header_fields_congr (counter_stop_name hk).1
        (counter_stop_name hk).2).2) _ _ _ hl
  have hheader : (report { s with counters := cs, gathering_statistics := false }).header =
      "pauses" :: "time" :: s.counters.flatMap header_fields := by
    simp only [report, hhead]
    rfl
  have hdata : (report { s with counters := cs, gathering_statistics := false }).data =
      Cell.d (s.current_phase / 2) ::
        Cell.f0 (counter_get_total (cs.getD s.time_counter zero_counter)
          s.current_phase true false) ::
        cs.flatMap (data_fields { s with counters := cs, gathering_statistics := false }) := by
    simp only [report]
    rfl
  refine ⟨?_, ?_, ?_, ?_, hcyc, ?_⟩
  · rw [hheader]
    simp only [List.length_cons, length_flatMap_header, State.num_counter]
    omega
  · rw [hheader, hdata]
    simp only [List.length_cons, length_flatMap_data, hhead]
  · rw [hheader]
    congr 2
    exact congrArg (fun f => s.counters.flatMap f) (funext header_fields_eq)
  · rw [hdata]
    congr 2
    apply congrArg (fun f => cs.flatMap f)
    funext c
    unfold data_fields
    cases is_cpu_cycles c <;> simp
  · intro c
    simp [is_cpu_cycles]

/-- Witness of C13: with a cycles counter and an instructions counter configured, both
lines of the summary have `2 + 2 * 4 + 2 * 1 = 12` fields. -/
theorem C13_summary_fields_witness :
    ∃ s2 s3 rep,
      window_state cycles_state [Boundary.start, Boundary.finish]
        (env_of example_raw) = .ok s2 ∧
      harness_end s2 (env_of example_raw 3) = .ok (s3, rep) ∧
      rep.header.length = 2 + 2 * s2.num_counter + 2 * s2.counters.countP is_cpu_cycles ∧
      rep.header.length = 12 ∧ rep.data.length = 12 ∧
      rep.header =
        ["pauses", "time", "time.other", "time.stw",
         "PERF_COUNT_SW_TASK_CLOCK.other", "PERF_COUNT_SW_TASK_CLOCK.stw",
         "PERF_COUNT_HW_CPU_CYCLES:u.other", "PERF_COUNT_HW_CPU_CYCLES:u.stw",
         "freq.other", "freq.stw",
         "PERF_COUNT_HW_INSTRUCTIONS.other", "PERF_COUNT_HW_INSTRUCTIONS.stw"] := by
  refine ⟨_, _, _, rfl, rfl, ?_, ?_, ?_, ?_⟩
  · exact (C13_summary_fields _ (env_of example_raw 3) _ _ (by rfl)).1
  · decide
  · rfl
  · decide

/-! ## Frame of a roll -/

/-- C14: for a running counter, a phase index `p < MAX_PHASES` and a sample `cur` whose raw
value is not below the base, `counter_phase_change` returns; with
`delta = cur.raw_value - start_value.raw_value` it sets `last_delta` to `delta`, adds
`delta` to `total_count` and to `count[p]` in `uint64_t` arithmetic (the exact sum
whenever that is below `2 ^ 64`), sets `start_value` to `cur`, and leaves every other
bucket and the name, type, running flag and descriptor as they were. -/
theorem C14_successful_roll_frame (c : Counter) (p : Nat) (r : Reading) (cur : CounterValue)
    (hr : c.running = true) (hp : p < MAX_PHASES)
    (hg : get_current_value c r = .ok cur)
    (hle : c.start_value.raw_value ≤ cur.raw_value) :
    ∃ c1, counter_phase_change c p r = .ok c1 ∧
      c1.last_delta = cur.raw_value - c.start_value.raw_value ∧
      c1.total_count =
        (c.total_count + (cur.raw_value - c.start_value.raw_value)) % UINT64_MOD ∧
      c1.count p = (c.count p + (cur.raw_value - c.start_value.raw_value)) % UINT64_MOD ∧
      (c.total_count + (cur.raw_value - c.start_value.raw_value) < UINT64_MOD →
        c1.total_count = c.total_count + (cur.raw_value - c.start_value.raw_value)) ∧
      (c.count p + (cur.raw_value - c.start_value.raw_value) < UINT64_MOD →
        c1.count p = c.count p + (cur.raw_value - c.start_value.raw_value)) ∧
      c1.start_value = cur ∧
      (∀ q, q ≠ p → c1.count q = c.count q) ∧
      c1.name = c.name ∧ c1.type = c.type ∧ c1.running = c.running ∧ c1.fd = c.fd := by
  refine ⟨_, counter_phase_change_running hr hp hg hle, rfl, rfl, ?_, ?_, ?_, rfl, ?_,
    rfl, rfl, rfl, rfl⟩
  · simp
  · intro h
    exact Nat.mod_eq_of_lt h
  · intro h
    simp only [Function.update_same]
    exact Nat.mod_eq_of_lt h
  · intro q hq
    simp [Function.update, hq]

/-- Witness of C14: the running hardware counter with base `500` reads `600` in phase
`3`. -/
theorem C14_successful_roll_frame_witness :
    ∃ c1, counter_phase_change example_counter 3 (env_of (fun _ => 600) 0 0) = .ok c1 ∧
      c1.last_delta = 100 ∧ c1.total_count = 100 ∧ c1.count 3 = 100 ∧ c1.count 2 = 0 ∧
      c1.start_value = { raw_value := 600, aux_value := 7 } := by
  obtain ⟨c1, h1, h2, h3, h4, _, _, h7, h8, _⟩ :=
    C14_successful_roll_frame example_counter 3 (env_of (fun _ => 600) 0 0)
      { raw_value := 600, aux_value := 7 } rfl (by decide) rfl (by decide)
  exact ⟨c1, h1, h2, h3, h4, h8 2 (by decide), h7⟩

/-- C15: on a counter that is not running, `counter_phase_change` returns the counter as
it is, for every phase index, those at or past `MAX_PHASES` included, and for everything
the environment could deliver: no sample enters the result and no assertion is reached. -/
theorem C15_roll_of_stopped_counter_is_noop (c : Counter) (p : Nat) (r : Reading)
    (h : c.running = false) : counter_phase_change c p r = .ok c := by
  unfold counter_phase_change
  simp [h]

/-- Witness of C15: a counter fresh from `perf_counter_create`, rolled into phase
`MAX_PHASES` with a read that fails. -/
theorem C15_roll_of_stopped_counter_is_noop_witness :
    (perf_counter_create "PERF_COUNT_HW_INSTRUCTIONS" 4).running = false ∧
    counter_phase_change (perf_counter_create "PERF_COUNT_HW_INSTRUCTIONS" 4) MAX_PHASES
        { tv_sec := 0, tv_nsec := 0, ret := 0, values0 := 0, values1 := 0, values2 := 0 } =
      .ok (perf_counter_create "PERF_COUNT_HW_INSTRUCTIONS" 4) :=
  ⟨rfl, C15_roll_of_stopped_counter_is_noop _ MAX_PHASES _ rfl⟩

/-! ## Closed buckets -/

/-- A relation that the loop body establishes between a counter and what it leaves of it,
whether it returns or aborts, holds index by index between the registry before the loop
and the registry after it or at its abort. -/
theorem for_each_counter_rel {f : Nat → Counter → Except (Fatal × Counter) Counter}
    (R : Counter → Counter → Prop) (hrefl : ∀ c, R c c)
    (hok : ∀ k c c1, f k c = .ok c1 → R c c1)
    (herr : ∀ k c e c1, f k c = .error (e, c1) → R c c1) :
    ∀ (cs : List Counter) (i : Nat) (res : List Counter),
      (for_each_counter f i cs = .ok res ∨ ∃ e, for_each_counter f i cs = .error (e, res)) →
      res.length = cs.length ∧
      ∀ (k : Nat) (c c1 : Counter), cs[k]? = some c → res[k]? = some c1 → R c c1 := by
  intro cs
  induction cs with
  | nil =>
    intro i res h
    rcases h with h | ⟨e, h⟩
    · simp only [for_each_counter, Except.ok.injEq] at h
      subst h
      exact ⟨rfl, fun k c c1 hk => by simp at hk⟩
    · simp [for_each_counter] at h
  | cons c cs ih =>
    intro i res h
    simp only [for_each_counter] at h
    cases hc : f i c with
    | error e1 =>
      obtain ⟨e1, c1⟩ := e1
      rw [hc] at h
      rcases h with h | ⟨e, h⟩
      · exact absurd h (by simp)
      · simp only [Except.error.injEq, Prod.mk.injEq] at h
        obtain ⟨_, h⟩ := h
        subst h
        refine ⟨by simp, ?_⟩
        intro k a b hk hk1
        cases k with
        | zero =>
          simp only [List.getElem?_cons_zero, Option.some.injEq] at hk hk1
          subst hk hk1
          exact herr _ _ _ _ hc
        | succ k =>
          simp only [List.getElem?_cons_succ] at hk hk1
          rw [hk] at hk1
          simp only [Option.some.injEq] at hk1
          subst hk1
          exact hrefl a
    | ok c1 =>
      rw [hc] at h
      cases h2 : for_each_counter f (i + 1) cs with
      | error e2 =>
        obtain ⟨e2, cs2⟩ := e2
        rw [h2] at h
        rcases h with h | ⟨e, h⟩
        · exact absurd h (by simp)
        · simp only [Except.error.injEq, Prod.mk.injEq] at h
          obtain ⟨_, h⟩ := h
          subst h
          obtain ⟨hlen, hrel⟩ := ih (i + 1) cs2 (Or.inr ⟨e2, h2⟩)
          refine ⟨by simp [hlen], ?_⟩
          intro k a b hk hk1
          cases k with
          | zero =>
            simp only [List.getElem?_cons_zero, Option.some.injEq] at hk hk1
            subst hk hk1
            exact hok _ _ _ hc
          | succ k =>
            simp only [List.getElem?_cons_succ] at hk hk1
            exact hrel k a b hk hk1
      | ok cs2 =>
        rw [h2] at h
        rcases h with h | ⟨e, h⟩
        · simp only [Except.ok.injEq] at h
          subst h
          obtain ⟨hlen, hrel⟩ := ih (i + 1) cs2 (Or.inl h2)
          refine ⟨by simp [hlen], ?_⟩
          intro k a b hk hk1
          cases k with
          | zero =>
            simp only [List.getElem?_cons_zero, Option.some.injEq] at hk hk1
            subst hk hk1
            exact hok _ _ _ hc
          | succ k =>
            simp only [List.getElem?_cons_succ] at hk hk1
            exact hrel k a b hk hk1
        · exact absurd h (by simp)

theorem counter_phase_change_count {c c1 : Counter} {p : Nat} {r : Reading}
    (h : counter_phase_change c p r = .ok c1) : ∀ i, i ≠ p → c1.count i = c.count i := by
  rcases counter_phase_change_ok h with ⟨_, rfl⟩ | ⟨_, _, cur, _, _, rfl⟩
  · intro i _; rfl
  · intro i hi
    simp [Function.update, hi]

theorem counter_stop_count {c c1 : Counter} {p : Nat} {r : Reading}
    (h : counter_stop c p r = .ok c1) : ∀ i, i ≠ p → c1.count i = c.count i := by
  obtain ⟨_, c2, h2, rfl⟩ := counter_stop_ok h
  intro i hi
  exact counter_phase_change_count h2 i hi

theorem counter_start_abort {c c1 : Counter} {r : Reading} {e : Fatal}
    (h : counter_start c r = .error (e, c1)) : c1 = { c with running := true } := by
  unfold counter_start at h
  simp only at h
  split at h
  · simp only [Except.error.injEq, Prod.mk.injEq] at h
    exact h.2.symm
  · exact absurd h (by simp)

/-- The registry that an entry point leaves, on return or at its abort, comes from the
registry before it through one run of the loop, or is that registry. -/
theorem phase_boundary_loop {s s1 : State} {env : Nat → Reading}
    (h : phase_boundary s env = .ok s1 ∨ ∃ e, phase_boundary s env = .error (e, s1)) :
    s1.counters = s.counters ∨
    (for_each_counter (fun i c => counter_phase_change c s.current_phase (env i)) 0
        s.counters = .ok s1.counters ∨
      ∃ e, for_each_counter (fun i c => counter_phase_change c s.current_phase (env i)) 0
        s.counters = .error (e, s1.counters)) := by
  unfold phase_boundary at h
  cases hg : s.gathering_statistics with
  | false =>
    rw [hg] at h
    simp only [Bool.false_eq_true, if_false, Except.ok.injEq] at h
    rcases h with h | ⟨e, h⟩
    · subst h; exact Or.inl rfl
    · exact absurd h (by simp)
  | true =>
    rw [hg] at h
    simp only [if_true] at h
    right
    cases hl : for_each_counter (fun i c => counter_phase_change c s.current_phase (env i)) 0
        s.counters with
    | error e1 =>
      obtain ⟨e1, cs⟩ := e1
      rw [hl] at h
      rcases h with h | ⟨e, h⟩
      · exact absurd h (by simp)
      · simp only [Except.error.injEq, Prod.mk.injEq] at h
        obtain ⟨_, h⟩ := h
        subst h
        exact Or.inr ⟨e1, rfl⟩
    | ok cs =>
      rw [hl] at h
      simp only at h
      left
      by_cases hi : INT_MAX ≤ s.current_phase
      · rw [if_pos hi] at h
        rcases h with h | ⟨e, h⟩
        · exact absurd h (by simp)
        · simp only [Except.error.injEq, Prod.mk.injEq] at h
          obtain ⟨_, h⟩ := h
          subst h; rfl
      · rw [if_neg hi] at h
        rcases h with h | ⟨e, h⟩
        · simp only [Except.ok.injEq] at h
          subst h; rfl
        · exact absurd h (by simp)

theorem harness_begin_loop {s s1 : State} {env : Nat → Reading}
    (h : harness_begin s env = .ok s1 ∨ ∃ e, harness_begin s env = .error (e, s1)) :
    for_each_counter (fun i c => counter_start c (env i)) 0 s.counters = .ok s1.counters ∨
      ∃ e, for_each_counter (fun i c => counter_start c (env i)) 0 s.counters =
        .error (e, s1.counters) := by
  unfold harness_begin at h
  simp only at h
  cases hl : for_each_counter (fun i c => counter_start c (env i)) 0 s.counters with
  | error e1 =>
    obtain ⟨e1, cs⟩ := e1
    rw [hl] at h
    rcases h with h | ⟨e, h⟩
    · exact absurd h (by simp)
    · simp only [Except.error.injEq, Prod.mk.injEq] at h
      obtain ⟨_, h⟩ := h
      subst h
      exact Or.inr ⟨e1, rfl⟩
  | ok cs =>
    rw [hl] at h
    rcases h with h | ⟨e, h⟩
    · simp only [Except.ok.injEq] at h
      subst h
      exact Or.inl rfl
    · exact absurd h (by simp)

theorem harness_end_loop {s s1 : State} {env : Nat → Reading}
    (h : (∃ rep, harness_end s env = .ok (s1, rep)) ∨
      ∃ e, harness_end s env = .error (e, s1)) :
    for_each_counter (fun i c => counter_stop c s.current_phase (env i)) 0 s.counters =
        .ok s1.counters ∨
      ∃ e, for_each_counter (fun i c => counter_stop c s.current_phase (env i)) 0 s.counters =
        .error (e, s1.counters) := by
  unfold harness_end at h
  cases hl : for_each_counter (fun i c => counter_stop c s.current_phase (env i)) 0
      s.counters with
  | error e1 =>
    obtain ⟨e1, cs⟩ := e1
    rw [hl] at h
    rcases h with ⟨rep, h⟩ | ⟨e, h⟩
    · exact absurd h (by simp)
    · simp only [Except.error.injEq, Prod.mk.injEq] at h
      obtain ⟨_, h⟩ := h
      subst h
      exact Or.inr ⟨e1, rfl⟩
  | ok cs =>
    rw [hl] at h
    rcases h with ⟨rep, h⟩ | ⟨e, h⟩
    · simp only [Except.ok.injEq, Prod.mk.injEq] at h
      obtain ⟨h, _⟩ := h
      subst h
      exact Or.inl rfl
    · exact absurd h (by simp)

theorem keepsBelow_refl (n : Nat) (cs : List Counter) : KeepsBelow n cs cs := by
  refine ⟨rfl, ?_⟩
  intro k c c1 hk hk1 i _
  rw [hk] at hk1
  simp only [Option.some.injEq] at hk1
  rw [hk1]

theorem keepsBelow_trans {n m : Nat} {a b d : List Counter} (hnm : n ≤ m)
    (h1 : KeepsBelow n a b) (h2 : KeepsBelow m b d) : KeepsBelow n a d := by
  refine ⟨h2.1.trans h1.1, ?_⟩
  intro k x z hx hz i hi
  have hlt : k < a.length := by
    rcases Nat.lt_or_ge k a.length with h | h
    · exact h
    · rw [List.getElem?_eq_none h] at hx; exact absurd hx (by simp)
  have hkb : k < b.length := by rw [h1.1]; exact hlt
  have hb : b[k]? = some b[k] := List.getElem?_eq_getElem hkb
  rw [h2.2 k _ z hb hz i (by omega), h1.2 k x _ hx hb i hi]

theorem call_exec_keeps {s s1 : State} {call : Call}
    (h : call.exec s = .ok s1 ∨ ∃ e, call.exec s = .error (e, s1)) :
    KeepsBelow s.current_phase s.counters s1.counters := by
  have hroll : ∀ (env : Nat → Reading),
      (phase_boundary s env = .ok s1 ∨ ∃ e, phase_boundary s env = .error (e, s1)) →
      KeepsBelow s.current_phase s.counters s1.counters := by
    intro env h
    rcases phase_boundary_loop h with h0 | hl
    · rw [h0]; exact keepsBelow_refl _ _
    · exact for_each_counter_rel
        (fun c c1 => ∀ i, i < s.current_phase → c1.count i = c.count i)
        (fun c i _ => rfl)
        (fun k c c1 hk i hi => counter_phase_change_count hk i (by omega))
        (fun k c e c1 hk i _ => by rw [counter_phase_change_abort hk])
        s.counters 0 s1.counters hl
  cases call with
  | harness_begin env =>
    exact for_each_counter_rel
      (fun c c1 => ∀ i, i < s.current_phase → c1.count i = c.count i)
      (fun c i _ => rfl)
      (fun k c c1 hk i _ => by
        obtain ⟨v, _, rfl⟩ := counter_start_ok hk
        rfl)
      (fun k c e c1 hk i _ => by rw [counter_start_abort hk])
      s.counters 0 s1.counters (harness_begin_loop h)
  | GarbageCollectionStart env => exact hroll env h
  | GarbageCollectionFinish env => exact hroll env h
  | harness_end env =>
    have h2 : (∃ rep, harness_end s env = .ok (s1, rep)) ∨
        ∃ e, harness_end s env = .error (e, s1) := by
      simp only [Call.exec] at h
      cases he : harness_end s env with
      | error e1 =>
        rw [he] at h
        rcases h with h | ⟨e, h⟩
        · exact absurd h (by simp)
        · exact Or.inr ⟨e, by simpa using h⟩
      | ok q =>
        obtain ⟨s2, rep⟩ := q
        rw [he] at h
        rcases h with h | ⟨e, h⟩
        · simp only [Except.ok.injEq] at h
          subst h
          exact Or.inl ⟨rep, rfl⟩
        · exact absurd h (by simp)
    exact for_each_counter_rel
      (fun c c1 => ∀ i, i < s.current_phase → c1.count i = c.count i)
      (fun c i _ => rfl)
      (fun k c c1 hk i hi => counter_stop_count hk i (by omega))
      (fun k c e c1 hk i _ => by rw [counter_stop_abort hk])
      s.counters 0 s1.counters (harness_end_loop h2)

theorem run_calls_keeps :
    ∀ (calls : List Call) (s s1 : State), run_calls s calls = .ok s1 →
      KeepsBelow s.current_phase s.counters s1.counters := by
  intro calls
  induction calls with
  | nil =>
    intro s s1 h
    simp only [run_calls, Except.ok.injEq] at h
    subst h
    exact keepsBelow_refl _ _
  | cons call calls ih =>
    intro s s1 h
    simp only [run_calls] at h
    cases he : call.exec s with
    | error e => rw [he] at h; exact absurd h (by simp)
    | ok s2 =>
      rw [he] at h
      exact keepsBelow_trans (call_exec_phase he) (call_exec_keeps (Or.inl he)) (ih s2 s1 h)

/-- C16: every call of an entry point in a state with `current_phase = p`, whether it
returns or ends the process, leaves the registry with the same number of counters and, in
every counter, each bucket `count[i]` with `i < p` as it was; and so does every sequence
of calls that return: once `current_phase` is past `i`, `count[i]` stays. -/
theorem C16_closed_buckets_are_immutable (s : State) :
    (∀ (call : Call) (s1 : State),
      (call.exec s = .ok s1 ∨ ∃ e, call.exec s = .error (e, s1)) →
      s1.counters.length = s.counters.length ∧
      ∀ (k : Nat) (c c1 : Counter), s.counters[k]? = some c → s1.counters[k]? = some c1 →
        ∀ i, i < s.current_phase → c1.count i = c.count i) ∧
    (∀ (calls : List Call) (s1 : State), run_calls s calls = .ok s1 →
      s1.counters.length = s.counters.length ∧
      ∀ (k : Nat) (c c1 : Counter), s.counters[k]? = some c → s1.counters[k]? = some c1 →
        ∀ i, i < s.current_phase → c1.count i = c.count i) :=
  ⟨fun _ _ h => call_exec_keeps h, fun calls s1 h => run_calls_keeps calls s s1 h⟩

/-- Witness of C16: the `harness_end` of a window with two notifications runs at
`current_phase = 2` and leaves the buckets `0` and `1` of every counter as they were. -/
theorem C16_closed_buckets_are_immutable_witness :
    ∃ s2 s3,
      window_state (setup_counters 3 []) [Boundary.start, Boundary.finish]
        (env_of example_raw) = .ok s2 ∧
      (Call.harness_end (env_of example_raw 3)).exec s2 = .ok s3 ∧
      s3.counters.length = s2.counters.length ∧
      ∀ (k : Nat) (c c1 : Counter), s2.counters[k]? = some c → s3.counters[k]? = some c1 →
        ∀ i, i < s2.current_phase → c1.count i = c.count i := by
  refine ⟨_, _, rfl, rfl, ?_⟩
  exact (C16_closed_buckets_are_immutable _).1 (Call.harness_end (env_of example_raw 3)) _
    (Or.inl (by rfl))

/-! ## The total of one window -/

theorem sum_of_deltas (raw : Nat → Nat) :
    ∀ K, (∀ m, m < K → raw m ≤ raw (m + 1)) →
      ∑ p in Finset.range K, (raw (p + 1) - raw p) = raw K - raw 0 := by
  intro K
  induction K with
  | zero => intro _; simp
  | succ K ih =>
    intro h
    rw [Finset.sum_range_succ, ih (fun m hm => h m (by omega))]
    have h0 := raw_chain raw (K + 1) h K (by omega)
    have h1 := h K (by omega)
    omega

/-- C17: from the initial state, if in a window with `k < MAX_PHASES` notifications every
read succeeds and call number `j` reads the raw value `S j i` for counter `i`, with
`S 0 i ≤ S 1 i ≤ ... ≤ S (k + 1) i`, then the window completes and every counter `i` ends
with `total_count` equal to the sum of the `k + 1` deltas `S (p + 1) i - S p i`, which is
`S (k + 1) i - S 0 i`, the raw value read by `harness_end` minus the one read by
`harness_begin`, and is below `2 ^ 64`: the additions never wrapped. -/
theorem C17_total_telescopes (fd0 : Int) (perf_events : List (String × Int))
    (kinds : List Boundary) (env : Nat → Nat → Reading) (S : Nat → Nat → Nat)
    (hk : kinds.length < MAX_PHASES)
    (hS : ∀ m, m ≤ kinds.length + 1 → ∀ i c0,
      (setup_counters fd0 perf_events).counters[i]? = some c0 →
      ∃ v, get_current_value c0 (env m i) = .ok v ∧ v.raw_value = S m i)
    (hmono : ∀ m, m < kinds.length + 1 → ∀ i, S m i ≤ S (m + 1) i) :
    ∃ s3 rep, window (setup_counters fd0 perf_events) kinds env = .ok (s3, rep) ∧
      s3.counters.length = (setup_counters fd0 perf_events).counters.length ∧
      ∀ i c, s3.counters[i]? = some c →
        c.total_count = ∑ p in Finset.range (kinds.length + 1), (S (p + 1) i - S p i) ∧
        c.total_count = S (kinds.length + 1) i - S 0 i ∧
        ∑ p in Finset.range (kinds.length + 1), (S (p + 1) i - S p i) < UINT64_MOD := by
  obtain ⟨s3, hw, _, _, hlen, hc⟩ := window_tracks fd0 perf_events kinds env S hk hS hmono
  refine ⟨s3, report s3, hw, hlen, ?_⟩
  intro i c hi
  obtain ⟨_, ⟨c0, h0, _, _⟩, _, _, _, htot⟩ := hc i c hi
  have htot : c.total_count = S (kinds.length + 1) i - S 0 i := htot
  have hsum := sum_of_deltas (fun m => S m i) (kinds.length + 1) (fun m hm => hmono m hm i)
  simp only at hsum
  obtain ⟨v, hv, hvr⟩ := hS (kinds.length + 1) (Nat.le_refl _) i c0 h0
  have hlt := get_current_value_lt hv
  rw [hvr] at hlt
  refine ⟨by rw [hsum]; exact htot, htot, ?_⟩
  rw [hsum]
  omega

/-- Witness of C17: the window with raw values `1000, 1100, 1150, 1180`; every total is
`180`. -/
theorem C17_total_telescopes_witness :
    ∃ s3 rep, window (setup_counters 3 []) [Boundary.start, Boundary.finish]
        (env_of example_raw) = .ok (s3, rep) ∧
      ∀ (i : Nat) (c : Counter), s3.counters[i]? = some c → c.total_count = 180 := by
  obtain ⟨s3, rep, hw, _, hc⟩ :=
    C17_total_telescopes 3 [] [Boundary.start, Boundary.finish]
      (env_of example_raw) (fun m _ => example_raw m) (by decide)
      (fun m _ i c0 _ => env_of_sample example_raw m i (example_raw_lt m) c0)
      (fun m hm _ => example_raw_mono m hm)
  refine ⟨s3, rep, hw, ?_⟩
  intro i c hi
  exact (hc i c hi).2.1

/-! ## Buckets of phases not yet entered -/

/-- C18: in every state reached from the initial state by calls of the entry points that
return, every counter has `count[i] = 0` for every `i` with
`current_phase < i < MAX_PHASES`; hence the sum of all `MAX_PHASES` buckets is the sum of
the buckets `0 .. current_phase`, which is the sum of the even-phase buckets and the
odd-phase buckets that `counter_get_total` adds up, and the rows of the record file, one
per phase `0 .. current_phase`, leave out only buckets that are zero. -/
theorem C18_later_buckets_are_zero (fd0 : Int) (perf_events : List (String × Int))
    (calls : List Call) (s : State)
    (h : run_calls (setup_counters fd0 perf_events) calls = .ok s) :
    ∀ c ∈ s.counters,
      (∀ i, s.current_phase < i → i < MAX_PHASES → c.count i = 0) ∧
      bucket_sum c.count MAX_PHASES = bucket_sum c.count (s.current_phase + 1) ∧
      bucket_sum c.count MAX_PHASES =
        parity_sum c.count s.current_phase 0 + parity_sum c.count s.current_phase 1 := by
  intro c hc
  have ha := run_calls_accounted calls _ s h (setup_counters_accounted fd0 perf_events) c hc
  have hall := bucket_sum_all_buckets ha
  have hpar := parity_sum_add c.count s.current_phase
  exact ⟨fun i hi _ => ha.2.1 i hi, hall, by rw [hall, hpar]⟩

/-- Witness of C18: the state after the window of `example_calls`. -/
theorem C18_later_buckets_are_zero_witness :
    ∃ s, run_calls (setup_counters 3 []) example_calls = .ok s ∧ s.current_phase = 2 ∧
      ∀ c ∈ s.counters, ∀ i, s.current_phase < i → i < MAX_PHASES → c.count i = 0 := by
  refine ⟨_, rfl, rfl, ?_⟩
  exact fun c hc => (C18_later_buckets_are_zero 3 [] example_calls _ (by rfl) c hc).1

/-! ## `harness_end` outside a window -/

theorem counter_stop_not_running {c : Counter} (h : c.running = false) (cp : Nat)
    (r : Reading) : counter_stop c cp r = .error (Fatal.not_running, c) := by
  unfold counter_stop
  simp [h]

theorem harness_end_not_running {s : State} {c0 : Counter} (env : Nat → Reading)
    (hhead : s.counters.head? = some c0) (hr : c0.running = false) :
    harness_end s env = .error (Fatal.not_running, s) := by
  obtain ⟨cp, cs, tc, tk, g⟩ := s
  cases cs with
  | nil => simp at hhead
  | cons c rest =>
    simp only [List.head?_cons, Option.some.injEq] at hhead
    subst hhead
    unfold harness_end
    simp only [for_each_counter, counter_stop_not_running hr]

theorem call_exec_length {s s1 : State} {call : Call} (h : call.exec s = .ok s1) :
    s1.counters.length = s.counters.length :=
  (call_exec_keeps (Or.inl h)).1

theorem run_calls_length {s s1 : State} {calls : List Call} (h : run_calls s calls = .ok s1) :
    s1.counters.length = s.counters.length :=
  (run_calls_keeps calls s s1 h).1

theorem setup_counters_head (fd0 : Int) (perf_events : List (String × Int)) :
    ∃ c0, (setup_counters fd0 perf_events).counters.head? = some c0 ∧ c0.running = false ∧
      0 < (setup_counters fd0 perf_events).counters.length := by
  refine ⟨_, rfl, rfl, ?_⟩
  simp [setup_counters]

theorem window_length {s s3 : State} {rep : Report} {kinds : List Boundary}
    {env : Nat → Nat → Reading} (h : window s kinds env = .ok (s3, rep)) :
    s3.counters.length = s.counters.length := by
  obtain ⟨s2, h2, he⟩ := window_ok h
  obtain ⟨s1, hb, hd⟩ := window_state_ok h2
  obtain ⟨cs1, hl1, rfl⟩ := harness_begin_ok hb
  obtain ⟨cs3, hl3, rfl, _⟩ := harness_end_ok he
  have e1 := for_each_counter_length _ _ _ hl1
  have e2 : s2.counters.length = cs1.length := run_calls_length hd
  have e3 := for_each_counter_length _ _ _ hl3
  simp only at e1 e2 e3 ⊢
  omega

theorem harness_end_stops {s s1 : State} {rep : Report} {env : Nat → Reading}
    (h : harness_end s env = .ok (s1, rep)) : ∀ c ∈ s1.counters, c.running = false := by
  obtain ⟨cs, hl, rfl, _⟩ := harness_end_ok h
  intro c1 hc1
  obtain ⟨c, _, k, hk⟩ := for_each_counter_mem hl hc1
  obtain ⟨_, c2, _, rfl⟩ := counter_stop_ok hk
  rfl

/-- C19: `counter_stop` on a counter that is not running ends the process at
`assert(c->running)` with the counter as it was, whatever the phase index and the
environment; so `harness_end` in a state whose first counter is not running, such as the
initial state (no `harness_begin` before) or the state left by the `harness_end` of a
window (a second `harness_end`), ends the process with the whole state as it was, and
returns no report. -/
theorem C19_harness_end_outside_window :
    (∀ (c : Counter) (cp : Nat) (r : Reading), c.running = false →
      counter_stop c cp r = .error (Fatal.not_running, c)) ∧
    (∀ (s : State) (env : Nat → Reading) (c0 : Counter),
      s.counters.head? = some c0 → c0.running = false →
      harness_end s env = .error (Fatal.not_running, s)) ∧
    (∀ (fd0 : Int) (perf_events : List (String × Int)) (env : Nat → Reading),
      harness_end (setup_counters fd0 perf_events) env =
        .error (Fatal.not_running, setup_counters fd0 perf_events)) ∧
    (∀ (fd0 : Int) (perf_events : List (String × Int)) (kinds : List Boundary)
      (env1 : Nat → Nat → Reading) (s3 : State) (rep : Report) (env : Nat → Reading),
      window (setup_counters fd0 perf_events) kinds env1 = .ok (s3, rep) →
      harness_end s3 env = .error (Fatal.not_running, s3)) := by
  refine ⟨fun c cp r h => counter_stop_not_running h cp r,
    fun s env c0 hh hr => harness_end_not_running env hh hr, ?_, ?_⟩
  · intro fd0 perf_events env
    obtain ⟨c0, hh, hr, _⟩ := setup_counters_head fd0 perf_events
    exact harness_end_not_running env hh hr
  · intro fd0 perf_events kinds env1 s3 rep env h
    have hlen := window_length h
    obtain ⟨_, _, _, hpos⟩ := setup_counters_head fd0 perf_events
    obtain ⟨s2, _, he⟩ := window_ok h
    have hstop := harness_end_stops he
    cases hcs : s3.counters with
    | nil =>
      rw [hcs] at hlen
      simp only [List.length_nil] at hlen
      omega
    | cons c1 rest =>
      have hmem : c1 ∈ s3.counters := by rw [hcs]; exact List.mem_cons_self _ _
      exact harness_end_not_running env (by rw [hcs]; rfl) (hstop c1 hmem)

/-- Witness of C19: a second `harness_end` after the window with raw values
`1000, 1100, 1150, 1180`. -/
theorem C19_harness_end_outside_window_witness :
    ∃ s3 rep, window (setup_counters 3 []) [Boundary.start, Boundary.finish]
        (env_of example_raw) = .ok (s3, rep) ∧
      harness_end s3 (env_of example_raw 3) = .error (Fatal.not_running, s3) :=
  ⟨_, _, rfl,
    C19_harness_end_outside_window.2.2.2 3 [] [Boundary.start, Boundary.finish]
      (env_of example_raw) _ _ (env_of example_raw 3) (by rfl)⟩

/-! ## Gathering and running -/

theorem counter_phase_change_running_eq {c c1 : Counter} {p : Nat} {r : Reading}
    (h : counter_phase_change c p r = .ok c1) : c1.running = c.running := by
  rcases counter_phase_change_ok h with ⟨_, rfl⟩ | ⟨_, _, cur, _, _, rfl⟩ <;> rfl

theorem call_exec_sync {s s1 : State} {call : Call} (h : call.exec s = .ok s1)
    (hs : ∀ c ∈ s.counters, c.running = s.gathering_statistics) :
    ∀ c ∈ s1.counters, c.running = s1.gathering_statistics := by
  have hroll : ∀ (env : Nat → Reading), phase_boundary s env = .ok s1 →
      ∀ c ∈ s1.counters, c.running = s1.gathering_statistics := by
    intro env h
    rcases phase_boundary_ok h with ⟨_, rfl⟩ | ⟨_, _, cs, hl, rfl⟩
    · exact hs
    · intro c1 hc1
      obtain ⟨c, hc, k, hk⟩ := for_each_counter_mem hl hc1
      rw [counter_phase_change_running_eq hk]
      exact hs c hc
  cases call with
  | harness_begin env =>
    obtain ⟨cs, hl, rfl⟩ := harness_begin_ok h
    intro c1 hc1
    obtain ⟨c, _, k, hk⟩ := for_each_counter_mem hl hc1
    obtain ⟨v, _, rfl⟩ := counter_start_ok hk
    rfl
  | GarbageCollectionStart env => exact hroll env h
  | GarbageCollectionFinish env => exact hroll env h
  | harness_end env =>
    simp only [Call.exec] at h
    cases he : harness_end s env with
    | error e => rw [he] at h; exact absurd h (by simp)
    | ok q =>
      obtain ⟨s2, rep⟩ := q
      rw [he] at h
      simp only [Except.ok.injEq] at h
      subst h
      intro c hc
      rw [harness_end_stops he c hc, (harness_end_phase he).2]

theorem run_calls_sync :
    ∀ (calls : List Call) (s s1 : State), run_calls s calls = .ok s1 →
      (∀ c ∈ s.counters, c.running = s.gathering_statistics) →
      ∀ c ∈ s1.counters, c.running = s1.gathering_statistics := by
  intro calls
  induction calls with
  | nil =>
    intro s s1 h hs
    simp only [run_calls, Except.ok.injEq] at h
    subst h; exact hs
  | cons call calls ih =>
    intro s s1 h hs
    simp only [run_calls] at h
    cases he : call.exec s with
    | error e => rw [he] at h; exact absurd h (by simp)
    | ok s2 =>
      rw [he] at h
      exact ih s2 s1 h (call_exec_sync he hs)

/-- C20: in every state reached from the initial state by calls of the entry points that
return, the registry is not empty and every counter's `running` flag equals
`gathering_statistics`: `gathering_statistics` is true exactly when every counter is
running, and false exactly when no counter is running. -/
theorem C20_gathering_iff_running (fd0 : Int) (perf_events : List (String × Int))
    (calls : List Call) (s : State)
    (h : run_calls (setup_counters fd0 perf_events) calls = .ok s) :
    0 < s.num_counter ∧
    (∀ c ∈ s.counters, c.running = s.gathering_statistics) ∧
    (s.gathering_statistics = true ↔ ∀ c ∈ s.counters, c.running = true) ∧
    (s.gathering_statistics = false ↔ ∀ c ∈ s.counters, c.running = false) := by
  have hsync := run_calls_sync calls _ s h (fun c hc => by
    rw [(setup_counters_fresh fd0 perf_events c hc).1]
    rfl)
  have hlen : s.counters.length = (setup_counters fd0 perf_events).counters.length :=
    run_calls_length h
  obtain ⟨_, _, _, hpos⟩ := setup_counters_head fd0 perf_events
  have hne : 0 < s.counters.length := by omega
  obtain ⟨c0, hc0⟩ : ∃ c0, c0 ∈ s.counters := List.exists_mem_of_length_pos hne
  refine ⟨hne, hsync, ?_, ?_⟩
  · constructor
    · intro hg c hc
      rw [hsync c hc, hg]
    · intro hall
      rw [← hsync c0 hc0]
      exact hall c0 hc0
  · constructor
    · intro hg c hc
      rw [hsync c hc, hg]
    · intro hall
      rw [← hsync c0 hc0]
      exact hall c0 hc0

/-- Witness of C20: inside a window every counter is running. -/
theorem C20_gathering_iff_running_witness :
    ∃ s, run_calls (setup_counters 3 [])
        [Call.harness_begin (env_of example_raw 0),
         Call.GarbageCollectionStart (env_of example_raw 1)] = .ok s ∧
      s.gathering_statistics = true ∧ ∀ c ∈ s.counters, c.running = true := by
  refine ⟨_, rfl, rfl, ?_⟩
  exact (C20_gathering_iff_running 3 []
    [Call.harness_begin (env_of example_raw 0),
     Call.GarbageCollectionStart (env_of example_raw 1)] _ (by rfl)).2.2.1.mp rfl

/-! ## Double arithmetic below `2 ^ 53` -/

theorem log2_floor_spec :
    ∀ (fuel n : Nat), n ≤ fuel → 0 < n →
      2 ^ log2_floor fuel n ≤ n ∧ n < 2 ^ (log2_floor fuel n + 1) := by
  intro fuel
  induction fuel with
  | zero => intro n h1 h2; omega
  | succ fuel ih =>
    intro n h1 h2
    unfold log2_floor
    by_cases hn : n < 2
    · rw [if_pos hn]
      have : n = 1 := by omega
      subst this
      exact ⟨by norm_num, by norm_num⟩
    · rw [if_neg hn]
      obtain ⟨h3, h4⟩ := ih (n / 2) (by omega) (by omega)
      rw [pow_succ, pow_succ]
      constructor <;> omega

theorem log2_floor_unique {n l : Nat} (h1 : 2 ^ l ≤ n) (h2 : n < 2 ^ (l + 1)) :
    log2_floor n n = l := by
  have hn : 0 < n := Nat.lt_of_lt_of_le (Nat.two_pow_pos _) h1
  obtain ⟨h3, h4⟩ := log2_floor_spec n n (Nat.le_refl n) hn
  have a : log2_floor n n < l + 1 := by
    by_contra hc
    have := Nat.pow_le_pow_right (n := 2) (by norm_num) (Nat.le_of_not_lt hc)
    omega
  have b : l < log2_floor n n + 1 := by
    by_contra hc
    have := Nat.pow_le_pow_right (n := 2) (by norm_num) (Nat.le_of_not_lt hc)
    omega
  omega

theorem log2_floor_shift {n : Nat} (hn : 0 < n) (j : Nat) :
    log2_floor (n * 2 ^ j) (n * 2 ^ j) = log2_floor n n + j := by
  obtain ⟨h3, h4⟩ := log2_floor_spec n n (Nat.le_refl n) hn
  apply log2_floor_unique
  · rw [pow_add]
    exact Nat.mul_le_mul_right _ h3
  · have e : 2 ^ (log2_floor n n + j + 1) = 2 ^ (log2_floor n n + 1) * 2 ^ j := by
      rw [← pow_add]; congr 1; omega
    rw [e]
    exact Nat.mul_lt_mul_of_pos_right h4 (Nat.two_pow_pos _)

/-- When the scaled quotient is a whole number, rounding returns it. -/
theorem round_of_whole {n d m : Nat} {x k : Int} (hn : n ≠ 0) (hd : 0 < d)
    (hk : (if d * 2 ^ ((log2_floor n n : Int) - (log2_floor d d : Int)).toNat ≤
            n * 2 ^ (-((log2_floor n n : Int) - (log2_floor d d : Int))).toNat
          then (log2_floor n n : Int) - (log2_floor d d : Int)
          else (log2_floor n n : Int) - (log2_floor d d : Int) - 1) - 52 = k)
    (hdiv : n * 2 ^ (-k).toNat = m * (d * 2 ^ k.toNat)) (hm : m ≠ 2 ^ 53) :
    Double.round n d x = ⟨m, k + x⟩ := by
  have hD : 0 < d * 2 ^ k.toNat := Nat.mul_pos hd (Nat.two_pow_pos _)
  unfold Double.round
  rw [if_neg hn]
  simp only [hk, hdiv]
  rw [Nat.mul_div_cancel _ hD, Nat.mul_mod_left]
  simp only [Nat.mul_zero, hD, if_true, hm, if_false]

theorem round_exact {n : Nat} (hn : 0 < n) (h53 : n < 2 ^ 53) (j : Nat) (x : Int) :
    Double.round (n * 2 ^ j) 1 x =
      ⟨n * 2 ^ (52 - log2_floor n n), (log2_floor n n : Int) - 52 + j + x⟩ := by
  obtain ⟨h3, h4⟩ := log2_floor_spec n n (Nat.le_refl n) hn
  have hl : log2_floor n n ≤ 52 := by
    by_contra hc
    have := Nat.pow_le_pow_right (n := 2) (by norm_num) (Nat.lt_of_not_le hc)
    omega
  have hL := log2_floor_shift hn j
  have h1 : log2_floor 1 1 = 0 := rfl
  have hpos : 0 < n * 2 ^ j := Nat.mul_pos hn (Nat.two_pow_pos _)
  have hm : n * 2 ^ (52 - log2_floor n n) ≠ 2 ^ 53 := by
    have e : 2 ^ 53 = 2 ^ (log2_floor n n + 1) * 2 ^ (52 - log2_floor n n) := by
      rw [← pow_add]; congr 1; omega
    rw [e]
    exact Nat.ne_of_lt (Nat.mul_lt_mul_of_pos_right h4 (Nat.two_pow_pos _))
  have hk : (if 1 * 2 ^ ((log2_floor (n * 2 ^ j) (n * 2 ^ j) : Int) - (log2_floor 1 1 : Int)).toNat ≤
            n * 2 ^ j * 2 ^ (-((log2_floor (n * 2 ^ j) (n * 2 ^ j) : Int) - (log2_floor 1 1 : Int))).toNat
          then (log2_floor (n * 2 ^ j) (n * 2 ^ j) : Int) - (log2_floor 1 1 : Int)
          else (log2_floor (n * 2 ^ j) (n * 2 ^ j) : Int) - (log2_floor 1 1 : Int) - 1) - 52 =
        (log2_floor n n : Int) - 52 + j := by
    rw [hL, h1]
    have a : ((log2_floor n n + j : Nat) : Int) - ((0 : Nat) : Int) = ((log2_floor n n + j : Nat) : Int) := by
      simp
    rw [a, Int.toNat_natCast, Int.toNat_neg_nat]
    have c : 1 * 2 ^ (log2_floor n n + j) ≤ n * 2 ^ j * 2 ^ 0 := by
      rw [pow_add]
      simp only [Nat.one_mul, pow_zero, Nat.mul_one]
      exact Nat.mul_le_mul_right _ h3
    rw [if_pos c]
    push_cast
    ring
  have hx : (log2_floor n n : Int) - 52 + j + x = ((log2_floor n n : Int) - 52 + j) + x := rfl
  rw [hx]
  apply round_of_whole (Nat.ne_of_gt hpos) (by norm_num) hk _ hm
  by_cases hc : log2_floor n n + j ≤ 52
  · have a : (-((log2_floor n n : Int) - 52 + j)).toNat = 52 - (log2_floor n n + j) := by omega
    have b : ((log2_floor n n : Int) - 52 + j).toNat = 0 := by omega
    rw [a, b]
    simp only [pow_zero, Nat.mul_one]
    rw [Nat.mul_assoc, ← pow_add]
    congr 2
    omega
  · have a : (-((log2_floor n n : Int) - 52 + j)).toNat = 0 := by omega
    have b : ((log2_floor n n : Int) - 52 + j).toNat = log2_floor n n + j - 52 := by omega
    rw [a, b]
    simp only [pow_zero, Nat.mul_one, Nat.one_mul]
    rw [Nat.mul_assoc, ← pow_add]
    congr 2
    omega

theorem of_uint64_zero : Double.of_uint64 0 = Double.zero := rfl

theorem of_uint64_exact {n : Nat} (hn : 0 < n) (h53 : n < 2 ^ 53) :
    Double.of_uint64 n = ⟨n * 2 ^ (52 - log2_floor n n), (log2_floor n n : Int) - 52⟩ := by
  have h := round_exact hn h53 0 0
  simp only [pow_zero, Nat.mul_one, Nat.cast_zero, Int.add_zero] at h
  exact h

/-- Below `2 ^ 53` the sum of two converted integers is the converted sum: nothing is
rounded. -/
theorem add_of_uint64 {a b : Nat} (h : a + b < 2 ^ 53) :
    Double.add (Double.of_uint64 a) (Double.of_uint64 b) = Double.of_uint64 (a + b) := by
  rcases Nat.eq_zero_or_pos a with ha | ha
  · subst ha
    simp [Double.add, of_uint64_zero, Double.zero]
  rcases Nat.eq_zero_or_pos b with hb | hb
  · subst hb
    have hm : (Double.of_uint64 a).mantissa ≠ 0 := by
      rw [of_uint64_exact ha (by omega)]
      exact Nat.ne_of_gt (Nat.mul_pos ha (Nat.two_pow_pos _))
    simp [Double.add, of_uint64_zero, Double.zero, hm]
  have ha53 : a < 2 ^ 53 := by omega
  have hb53 : b < 2 ^ 53 := by omega
  obtain ⟨a3, a4⟩ := log2_floor_spec a a (Nat.le_refl a) ha
  obtain ⟨b3, b4⟩ := log2_floor_spec b b (Nat.le_refl b) hb
  have hla : log2_floor a a ≤ 52 := by
    by_contra hc
    have := Nat.pow_le_pow_right (n := 2) (by norm_num) (Nat.lt_of_not_le hc)
    omega
  have hlb : log2_floor b b ≤ 52 := by
    by_contra hc
    have := Nat.pow_le_pow_right (n := 2) (by norm_num) (Nat.lt_of_not_le hc)
    omega
  rw [of_uint64_exact ha ha53, of_uint64_exact hb hb53]
  have hma : a * 2 ^ (52 - log2_floor a a) ≠ 0 := Nat.ne_of_gt (Nat.mul_pos ha (Nat.two_pow_pos _))
  have hmb : b * 2 ^ (52 - log2_floor b b) ≠ 0 := Nat.ne_of_gt (Nat.mul_pos hb (Nat.two_pow_pos _))
  unfold Double.add
  simp only [hma, hmb, if_false]
  have hj : ∃ j : Nat, min ((log2_floor a a : Int) - 52) ((log2_floor b b : Int) - 52) = -(j : Int) ∧
      52 - log2_floor a a + (((log2_floor a a : Int) - 52) -
        min ((log2_floor a a : Int) - 52) ((log2_floor b b : Int) - 52)).toNat = j ∧
      52 - log2_floor b b + (((log2_floor b b : Int) - 52) -
        min ((log2_floor a a : Int) - 52) ((log2_floor b b : Int) - 52)).toNat = j := by
    refine ⟨52 - min (log2_floor a a) (log2_floor b b), ?_, ?_, ?_⟩ <;> omega
  obtain ⟨j, hmin, hja, hjb⟩ := hj
  have hN : a * 2 ^ (52 - log2_floor a a) *
        2 ^ (((log2_floor a a : Int) - 52) -
          min ((log2_floor a a : Int) - 52) ((log2_floor b b : Int) - 52)).toNat +
      b * 2 ^ (52 - log2_floor b b) *
        2 ^ (((log2_floor b b : Int) - 52) -
          min ((log2_floor a a : Int) - 52) ((log2_floor b b : Int) - 52)).toNat =
      (a + b) * 2 ^ j := by
    rw [Nat.mul_assoc, ← pow_add, hja, Nat.mul_assoc, ← pow_add, hjb]
    ring
  rw [hN, hmin, round_exact (Nat.add_pos_left ha b) h j, of_uint64_exact (Nat.add_pos_left ha b) h]
  congr 1
  omega

theorem val_of_uint64 {n : Nat} (h53 : n < 2 ^ 53) : (Double.of_uint64 n).val = n := by
  rcases Nat.eq_zero_or_pos n with hn | hn
  · subst hn
    simp [of_uint64_zero, Double.zero, Double.val]
  obtain ⟨h3, h4⟩ := log2_floor_spec n n (Nat.le_refl n) hn
  have hl : log2_floor n n ≤ 52 := by
    by_contra hc
    have := Nat.pow_le_pow_right (n := 2) (by norm_num) (Nat.lt_of_not_le hc)
    omega
  rw [of_uint64_exact hn h53]
  unfold Double.val
  simp only
  have e : ((log2_floor n n : Int) - 52) = -((52 - log2_floor n n : Nat) : Int) := by omega
  rw [e, zpow_neg, zpow_natCast]
  push_cast
  have h2 : (2 : ℚ) ^ (52 - log2_floor n n) ≠ 0 := pow_ne_zero _ (by norm_num)
  field_simp

/-! ## The split in double arithmetic -/

theorem parity_filter_step {cp i : Nat} (h : i ≤ cp) :
    (Finset.range (cp + 1)).filter (fun j => i ≤ j ∧ j % 2 = i % 2) =
      insert i ((Finset.range (cp + 1)).filter (fun j => i + 2 ≤ j ∧ j % 2 = (i + 2) % 2)) ∧
    i ∉ (Finset.range (cp + 1)).filter (fun j => i + 2 ≤ j ∧ j % 2 = (i + 2) % 2) := by
  constructor
  · ext j
    simp only [Finset.mem_filter, Finset.mem_range, Finset.mem_insert]
    constructor
    · rintro ⟨h1, h2, h3⟩
      by_cases hji : j = i
      · exact Or.inl hji
      · refine Or.inr ⟨h1, ?_, ?_⟩ <;> omega
    · rintro (rfl | ⟨h1, h2, h3⟩)
      · exact ⟨by omega, Nat.le_refl _, rfl⟩
      · refine ⟨h1, ?_, ?_⟩ <;> omega
  · simp only [Finset.mem_filter, Finset.mem_range, not_and]
    intro _ h2
    omega

theorem parity_filter_empty {cp i : Nat} (h : ¬ i ≤ cp) :
    (Finset.range (cp + 1)).filter (fun j => i ≤ j ∧ j % 2 = i % 2) = ∅ := by
  ext j
  simp only [Finset.mem_filter, Finset.mem_range, Finset.not_mem_empty, iff_false, not_and]
  intro h1 h2
  omega

/-- While the sum stays below `2 ^ 53`, the loop of `counter_get_total` in double
arithmetic adds the buckets without rounding. -/
theorem counter_get_total_double_loop_exact (count : Nat → Nat) (cp : Nat) :
    ∀ (n i a : Nat), cp + 1 - i = n →
      a + ∑ j in (Finset.range (cp + 1)).filter (fun j => i ≤ j ∧ j % 2 = i % 2), count j
        < 2 ^ 53 →
      counter_get_total_double_loop count cp i (Double.of_uint64 a) =
        Double.of_uint64
          (a + ∑ j in (Finset.range (cp + 1)).filter (fun j => i ≤ j ∧ j % 2 = i % 2),
            count j) := by
  intro n
  induction n using Nat.strong_induction_on with
  | _ n ih =>
    intro i a hn hlt
    rw [counter_get_total_double_loop]
    by_cases h : i ≤ cp
    · rw [if_pos h]
      obtain ⟨hset, hnot⟩ := parity_filter_step h
      rw [hset, Finset.sum_insert hnot] at hlt ⊢
      rw [add_of_uint64 (by omega)]
      rw [ih (cp + 1 - (i + 2)) (by omega) (i + 2) _ rfl (by omega)]
      congr 1
      omega
    · rw [if_neg h, parity_filter_empty h]
      simp

/-- For a hardware counter whose buckets `0 .. cp` sum to less than `2 ^ 53`, every double
that `counter_get_total` forms is the integer it stands for. -/
theorem counter_get_total_double_exact (c : Counter) (cp : Nat) (mutator : Bool)
    (ht : c.type = CounterType.PerfEvent)
    (h53 : parity_sum c.count cp 0 + parity_sum c.count cp 1 < 2 ^ 53) :
    counter_get_total_double c cp true mutator = Double.of_uint64 c.total_count ∧
    counter_get_total_double c cp false true = Double.of_uint64 (parity_sum c.count cp 0) ∧
    counter_get_total_double c cp false false = Double.of_uint64 (parity_sum c.count cp 1) := by
  have hs0 : (Finset.range (cp + 1)).filter (fun j => 0 ≤ j ∧ j % 2 = 0 % 2) =
      (Finset.range (cp + 1)).filter (fun j => j % 2 = 0) := by
    apply Finset.filter_congr
    intro j _
    simp
  have hs1 : (Finset.range (cp + 1)).filter (fun j => 1 ≤ j ∧ j % 2 = 1 % 2) =
      (Finset.range (cp + 1)).filter (fun j => j % 2 = 1) := by
    apply Finset.filter_congr
    intro j _
    constructor
    · rintro ⟨_, h3⟩; omega
    · intro h3; exact ⟨by omega, by omega⟩
  have h0 := counter_get_total_double_loop_exact c.count cp _ 0 0 rfl
  have h1 := counter_get_total_double_loop_exact c.count cp _ 1 0 rfl
  rw [hs0] at h0
  rw [hs1] at h1
  simp only [Nat.zero_add, of_uint64_zero] at h0 h1
  refine ⟨?_, ?_, ?_⟩
  · simp [counter_get_total_double, ht]
  · simp only [counter_get_total_double, ht, reduceCtorEq, if_false, if_true,
      Bool.false_eq_true]
    exact h0 (by unfold parity_sum at h53; omega)
  · simp only [counter_get_total_double, ht, reduceCtorEq, if_false, Bool.false_eq_true]
    exact h1 (by unfold parity_sum at h53; omega)

/-- Where nothing is rounded, the double that `counter_get_total` returns stands for the
number that the exact arithmetic gives. -/
theorem counter_get_total_double_val (c : Counter) (cp : Nat) (merged mutator : Bool)
    (ht : c.type = CounterType.PerfEvent)
    (htot : c.total_count = parity_sum c.count cp 0 + parity_sum c.count cp 1)
    (h53 : parity_sum c.count cp 0 + parity_sum c.count cp 1 < 2 ^ 53) :
    (counter_get_total_double c cp merged mutator).val = counter_get_total c cp merged mutator := by
  obtain ⟨d1, d2, d3⟩ := counter_get_total_double_exact c cp mutator ht h53
  obtain ⟨e1, e2, e3⟩ := counter_get_total_eq c cp mutator
  cases merged with
  | true =>
    rw [d1, e1, val_of_uint64 (by omega)]
    simp [ht]
  | false =>
    cases mutator with
    | true =>
      rw [d2, e2, val_of_uint64 (by omega)]
      simp [ht]
    | false =>
      rw [d3, e3, val_of_uint64 (by omega)]
      simp [ht]

theorem counter_get_total_double_loop_two (count : Nat → Nat) (z : Double) :
    counter_get_total_double_loop count 2 0 z =
      Double.add (Double.add z (Double.of_uint64 (count 0))) (Double.of_uint64 (count 2)) ∧
    counter_get_total_double_loop count 2 1 z = Double.add z (Double.of_uint64 (count 1)) := by
  constructor
  · rw [counter_get_total_double_loop, if_pos (by decide), counter_get_total_double_loop,
      if_pos (by decide), counter_get_total_double_loop, if_neg (by decide)]
  · rw [counter_get_total_double_loop, if_pos (by decide), counter_get_total_double_loop,
      if_neg (by decide)]

/-- C2 (amended): in every state reached from the initial state by calls of the entry
points that return, every counter's `total_count` is the sum of its even-phase buckets and
its odd-phase buckets `0 .. current_phase` modulo `2 ^ 64`; and for a hardware counter
whose buckets `0 .. current_phase` sum to less than `2 ^ 53`, the merged total that
`counter_get_total` returns is the double sum, and the exact sum, of the mutator total and
the STW total it returns, and the three doubles are `total_count` and the two bucket
sums. -/
theorem C2_split_is_additive_below_two_pow_53 (fd0 : Int) (perf_events : List (String × Int))
    (calls : List Call) (s : State)
    (h : run_calls (setup_counters fd0 perf_events) calls = .ok s) :
    ∀ c ∈ s.counters,
      c.total_count =
        (parity_sum c.count s.current_phase 0 + parity_sum c.count s.current_phase 1)
          % UINT64_MOD ∧
      (c.type = CounterType.PerfEvent →
        parity_sum c.count s.current_phase 0 + parity_sum c.count s.current_phase 1 < 2 ^ 53 →
        ∀ mutator,
          counter_get_total_double c s.current_phase true mutator =
            Double.add (counter_get_total_double c s.current_phase false true)
              (counter_get_total_double c s.current_phase false false) ∧
          (counter_get_total_double c s.current_phase true mutator).val =
            (counter_get_total_double c s.current_phase false true).val +
              (counter_get_total_double c s.current_phase false false).val ∧
          (counter_get_total_double c s.current_phase true mutator).val = c.total_count ∧
          (counter_get_total_double c s.current_phase false true).val =
            parity_sum c.count s.current_phase 0 ∧
          (counter_get_total_double c s.current_phase false false).val =
            parity_sum c.count s.current_phase 1) := by
  intro c hc
  have ha := run_calls_accounted calls _ s h (setup_counters_accounted fd0 perf_events) c hc
  have hmod : c.total_count =
      (parity_sum c.count s.current_phase 0 + parity_sum c.count s.current_phase 1)
        % UINT64_MOD := by
    rw [parity_sum_add]; exact ha.1
  refine ⟨hmod, ?_⟩
  intro ht h53 mutator
  have hM : parity_sum c.count s.current_phase 0 + parity_sum c.count s.current_phase 1
      < UINT64_MOD := by
    unfold UINT64_MOD
    omega
  have htot : c.total_count =
      parity_sum c.count s.current_phase 0 + parity_sum c.count s.current_phase 1 := by
    rw [hmod, Nat.mod_eq_of_lt hM]
  obtain ⟨e1, e2, e3⟩ := counter_get_total_double_exact c s.current_phase mutator ht h53
  rw [e1, e2, e3, add_of_uint64 h53, ← htot]
  have v1 : (Double.of_uint64 c.total_count).val = c.total_count :=
    val_of_uint64 (by rw [htot]; exact h53)
  have v2 : (Double.of_uint64 (parity_sum c.count s.current_phase 0)).val =
      parity_sum c.count s.current_phase 0 := val_of_uint64 (by omega)
  have v3 : (Double.of_uint64 (parity_sum c.count s.current_phase 1)).val =
      parity_sum c.count s.current_phase 1 := val_of_uint64 (by omega)
  refine ⟨rfl, ?_, v1, v2, v3⟩
  rw [v1, v2, v3, htot]
  push_cast
  rfl

/-- Witness of C2 (amended): after the window of `example_calls` the task clock counter, a
hardware counter with buckets `100, 50, 30`, has the merged total `180`, the double sum of
its mutator total `130` and its STW total `50`. -/
theorem C2_split_is_additive_below_two_pow_53_witness :
    ∃ s, run_calls (setup_counters 3 []) example_calls = .ok s ∧
      ∃ c, s.counters[1]? = some c ∧ c.type = CounterType.PerfEvent ∧
        c.total_count = 180 ∧
        counter_get_total_double c s.current_phase true false =
          Double.add (counter_get_total_double c s.current_phase false true)
            (counter_get_total_double c s.current_phase false false) ∧
        (counter_get_total_double c s.current_phase true false).val = c.total_count := by
  refine ⟨_, rfl, _, rfl, rfl, rfl, ?_⟩
  have h := (C2_split_is_additive_below_two_pow_53 3 [] example_calls _ (by rfl) _
    (List.mem_cons_of_mem _ (List.mem_cons_self _ _))).2 rfl (by decide) false
  exact ⟨h.1, h.2.2.1⟩

/-- C2 fails as stated: after the window with the clock readings `1000, 1100, 1150, 1180`
nanoseconds the time counter has the buckets `100, 50, 30` and `total_count = 180`.  Its
merged total is the double nearest to `0.00018`, with mantissa `6640827866535439`; its
mutator total and its STW total are the doubles nearest to `0.00013` and `0.00005`, and
their sum, rounded to a double or not, is another number: the double sum has the
mantissa `6640827866535438`. -/
theorem C2_counterexample :
    ∃ s3 rep, window (setup_counters 3 []) [Boundary.start, Boundary.finish]
        (env_of example_raw) = .ok (s3, rep) ∧
      ∃ c, s3.counters[0]? = some c ∧ c.type = CounterType.Time ∧ c.total_count = 180 ∧
        c.count 0 = 100 ∧ c.count 1 = 50 ∧ c.count 2 = 30 ∧
        counter_get_total_double c s3.current_phase true false = ⟨6640827866535439, -65⟩ ∧
        counter_get_total_double c s3.current_phase false true = ⟨4796153459164483, -65⟩ ∧
        counter_get_total_double c s3.current_phase false false = ⟨7378697629483821, -67⟩ ∧
        Double.add (counter_get_total_double c s3.current_phase false true)
          (counter_get_total_double c s3.current_phase false false) =
            ⟨6640827866535438, -65⟩ ∧
        counter_get_total_double c s3.current_phase true false ≠
          Double.add (counter_get_total_double c s3.current_phase false true)
            (counter_get_total_double c s3.current_phase false false) ∧
        (counter_get_total_double c s3.current_phase true false).val ≠
          (counter_get_total_double c s3.current_phase false true).val +
            (counter_get_total_double c s3.current_phase false false).val := by
  refine ⟨_, _, rfl, _, rfl, rfl, rfl, rfl, rfl, rfl, ?_⟩
  have h1 : ∀ (c : Counter), c.type = CounterType.Time → c.total_count = 180 →
      c.count 0 = 100 → c.count 1 = 50 → c.count 2 = 30 →
      counter_get_total_double c 2 true false = ⟨6640827866535439, -65⟩ ∧
      counter_get_total_double c 2 false true = ⟨4796153459164483, -65⟩ ∧
      counter_get_total_double c 2 false false = ⟨7378697629483821, -67⟩ ∧
      Double.add (counter_get_total_double c 2 false true)
        (counter_get_total_double c 2 false false) = ⟨6640827866535438, -65⟩ ∧
      counter_get_total_double c 2 true false ≠
        Double.add (counter_get_total_double c 2 false true)
          (counter_get_total_double c 2 false false) ∧
      (counter_get_total_double c 2 true false).val ≠
        (counter_get_total_double c 2 false true).val +
          (counter_get_total_double c 2 false false).val := by
    intro c ht htot h0 h1 h2
    obtain ⟨l0, l1⟩ := counter_get_total_double_loop_two c.count Double.zero
    have m : counter_get_total_double c 2 true false = ⟨6640827866535439, -65⟩ := by
      simp only [counter_get_total_double, ht, if_true, htot]
      decide
    have a : counter_get_total_double c 2 false true = ⟨4796153459164483, -65⟩ := by
      simp only [counter_get_total_double, ht, if_true, Bool.false_eq_true, if_false, l0, h0, h2]
      decide
    have b : counter_get_total_double c 2 false false = ⟨7378697629483821, -67⟩ := by
      simp only [counter_get_total_double, ht, if_true, Bool.false_eq_true, if_false, l1, h1]
      decide
    rw [m, a, b]
    refine ⟨rfl, rfl, rfl, by decide, by decide, ?_⟩
    simp only [Double.val]
    norm_num
  exact h1 _ rfl rfl rfl rfl rfl

set_option maxRecDepth 100000 in
/-- Hardware counts from `2 ^ 53` on are rounded as well: after a window with the buckets
`2 ^ 53, 1, 1` the task clock counter has the merged total `2 ^ 53 + 2`, while its mutator
total `2 ^ 53 + 1` is rounded to `2 ^ 53` and so is the double sum of the split. -/
theorem rounding_of_large_counts :
    ∃ s3 rep, window (setup_counters 3 []) [Boundary.start, Boundary.finish]
        (env_of large_raw) = .ok (s3, rep) ∧
      ∃ c, s3.counters[1]? = some c ∧ c.type = CounterType.PerfEvent ∧
        c.total_count = 2 ^ 53 + 2 ∧
        counter_get_total_double c s3.current_phase true false = ⟨2 ^ 52 + 1, 1⟩ ∧
        Double.add (counter_get_total_double c s3.current_phase false true)
          (counter_get_total_double c s3.current_phase false false) = ⟨2 ^ 52, 1⟩ := by
  refine ⟨_, _, rfl, _, rfl, rfl, rfl, ?_⟩
  have h1 : ∀ (c : Counter), c.type = CounterType.PerfEvent → c.total_count = 2 ^ 53 + 2 →
      c.count 0 = 2 ^ 53 → c.count 1 = 1 → c.count 2 = 1 →
      counter_get_total_double c 2 true false = ⟨2 ^ 52 + 1, 1⟩ ∧
      Double.add (counter_get_total_double c 2 false true)
        (counter_get_total_double c 2 false false) = ⟨2 ^ 52, 1⟩ := by
    intro c ht htot h0 h1 h2
    obtain ⟨l0, l1⟩ := counter_get_total_double_loop_two c.count Double.zero
    constructor
    · simp only [counter_get_total_double, ht, reduceCtorEq, if_true, if_false, htot]
      decide
    · simp only [counter_get_total_double, ht, reduceCtorEq, if_true, Bool.false_eq_true,
        if_false, l0, l1, h0, h1, h2]
      decide
  exact h1 _ rfl rfl rfl rfl rfl

end PerfStatistics
